import Mathlib

/-!
Verification development for the Lumi import pipeline
(`functions/import_pipeline/import_pipeline.py` and its duplicate
`functions/import_pipeline/convert_html_to_lumi.py`).

Python strings are modelled as `List Char` (sequences of code points) and
Python slices `s[i:j]` as `(s.take j).drop i`.  The external collaborators
that are not part of the repository sources (the `shared.import_tags`
regular-expression table, the sentence segmenter, and the unique-id
generator) are modelled from the spec as explicit parameters or as
well-formedness predicates; every place where this happens is marked.

The inline tag parser `parse_text_and_extract_inner_tags` is a cursor loop
whose termination depends on properties of the registered regex patterns;
it is embedded with an explicit fuel argument, and the termination claim is
the theorem that the chosen fuel bound is always sufficient for any pattern
table satisfying `ValidDefs`.
-/

namespace Lumi

/-- Python strings are sequences of characters. -/
abbrev Str := List Char

/-- Python slice `s[i:j]` (for `0 ≤ i ≤ j`, clamped at the ends exactly as in
Python). -/
def extractSlice (s : Str) (i j : Nat) : Str := (s.take j).drop i

/-- `InnerTag.position` in `shared/lumi_doc.py` (modelled from the spec data
model, the file is not part of the provided sources): a half-open character
interval. -/
structure Position where
  start_index : Nat
  end_index : Nat

/-- `InnerTag` of `shared/lumi_doc.py` (modelled from the spec data model):
name, string-to-string metadata map (modelled as an association list),
position, recursive children. -/
inductive InnerTag where
| mk (tag_name : String) (metadata : List (String × String))
    (position : Position) (children : List InnerTag)

def InnerTag.tagName : InnerTag → String
| .mk n _ _ _ => n

def InnerTag.metadata : InnerTag → List (String × String)
| .mk _ m _ _ => m

def InnerTag.position : InnerTag → Position
| .mk _ _ p _ => p

def InnerTag.children : InnerTag → List InnerTag
| .mk _ _ _ c => c

/-- The result of `pattern.search(raw, pos)` for one of the registered tag
patterns: the span `[mstart, mend)` of the full match, the text captured by
the pattern's `content` group (`none` when the pattern defines no such
group), and the metadata extracted by the tag definition's
`metadata_extractor` from this match. -/
structure RegexMatch where
  mstart : Nat
  mend : Nat
  content : Option Str
  metadata : List (String × String)

/-- One entry of `shared.import_tags.TAG_DEFINITIONS` (modelled from the
spec: an ordered registry of inline-tag syntaxes, each with a match pattern,
a name, and a metadata-extraction rule; the concrete regexes are not part of
the provided sources).  `search raw pos` models
`tag_definition["pattern"].search(raw, pos)` together with the metadata
extraction. -/
structure TagDef where
  name : String
  search : Str → Nat → Option RegexMatch

/-- Well-formedness of one registered tag pattern, modelled from the spec:
every inline marker is a paired start/end or start-prefix+id+end token pair,
so a match starts no earlier than the searched-from position, is non-empty,
lies inside the string, and its `content` group is properly inside the
delimiters (strictly shorter than the whole match). -/
def ValidTagDef (td : TagDef) : Prop :=
  ∀ s pos m, td.search s pos = some m →
    pos ≤ m.mstart ∧ m.mstart < m.mend ∧ m.mend ≤ s.length ∧
    ∀ c, m.content = some c → c.length < m.mend - m.mstart

/-- Well-formedness of the whole registered pattern table. -/
def ValidDefs (defs : List TagDef) : Prop := ∀ td ∈ defs, ValidTagDef td

/-- The scan in `parse_text_and_extract_inner_tags` that finds the earliest
next tag from `pos`: iterate over `TAG_DEFINITIONS` in order and keep the
match with the strictly smallest start offset (first definition wins ties,
as in the Python `<` comparison). -/
def findEarliest (defs : List TagDef) (raw : Str) (pos : Nat) :
    Option (RegexMatch × TagDef) :=
  defs.foldl
    (fun acc td =>
      match td.search raw pos with
      | none => acc
      | some m =>
        match acc with
        | none => some (m, td)
        | some (m0, td0) =>
          if m.mstart < m0.mstart then some (m, td) else some (m0, td0))
    none

/-- Fuelled embedding of the `while` loop of
`parse_text_and_extract_inner_tags` (import_pipeline.py lines 555-616).
State: `posRaw` is `current_position_raw`, `acc` is `cleaned_text_content`,
`posCleaned` is `current_position_cleaned`, `tags` is `inner_tags`.
`none` means the fuel ran out (the Python loop would still be running);
the recursion into a matched tag's content restarts the same algorithm at
offset 0 on the captured group (an absent group recurses on `""`, as in
`tag_inner_content_raw = ""`). -/
def parseGo (defs : List TagDef) :
    Nat → Str → Nat → Str → Nat → List InnerTag → Option (Str × List InnerTag)
| 0, _, _, _, _, _ => none
| fuel + 1, raw, posRaw, acc, posCleaned, tags =>
  if posRaw < raw.length then
    match findEarliest defs raw posRaw with
    | some (m, td) =>
      match parseGo defs fuel (m.content.getD []) 0 [] 0 [] with
      | none => none
      | some (innerCleaned, childTags) =>
        parseGo defs fuel raw m.mend
          (acc ++ extractSlice raw posRaw m.mstart ++ innerCleaned)
          (posCleaned + (extractSlice raw posRaw m.mstart).length
            + innerCleaned.length)
          (tags ++ [InnerTag.mk td.name m.metadata
            ⟨posCleaned + (extractSlice raw posRaw m.mstart).length,
              posCleaned + (extractSlice raw posRaw m.mstart).length
                + innerCleaned.length⟩
            childTags])
    | none => some (acc ++ raw.drop posRaw, tags)
  else
    some (acc, tags)

/-- Fuel sufficient for `parseGo` on input `raw` (proved sufficient for any
table satisfying `ValidDefs` in `parseGo_total`). -/
def parseFuel (raw : Str) : Nat := raw.length * (raw.length + 2) + raw.length + 1

/-- `parse_text_and_extract_inner_tags(raw_content)` (import_pipeline.py
lines 544-616): parses raw content into plain text plus a forest of
`InnerTag`s.  The default on fuel exhaustion is never reached for a
well-formed pattern table. -/
def parse_text_and_extract_inner_tags (defs : List TagDef) (raw : Str) :
    Str × List InnerTag :=
  (parseGo defs (parseFuel raw) raw 0 [] 0 []).getD ([], [])

/-- Soundness of the earliest-match fold: any produced pair either was the
initial accumulator or comes from an entry of the scanned list searching at
the given position. -/
theorem foldlEarliest_sound (raw : Str) (pos : Nat) :
    ∀ (l : List TagDef) (acc : Option (RegexMatch × TagDef))
      (m : RegexMatch) (td : TagDef),
      l.foldl
        (fun acc td =>
          match td.search raw pos with
          | none => acc
          | some m =>
            match acc with
            | none => some (m, td)
            | some (m0, td0) =>
              if m.mstart < m0.mstart then some (m, td) else some (m0, td0))
        acc = some (m, td) →
      acc = some (m, td) ∨ (td ∈ l ∧ td.search raw pos = some m) := by
  intro l
  induction l with
  | nil => intro acc m td h; exact Or.inl h
  | cons hd tl ih =>
    intro acc m td h
    rw [List.foldl_cons] at h
    rcases ih _ m td h with hacc | ⟨hmem, hs⟩
    · cases hsearch : hd.search raw pos with
      | none => rw [hsearch] at hacc; exact Or.inl hacc
      | some m1 =>
        rw [hsearch] at hacc
        cases acc with
        | none =>
          simp only [] at hacc
          injection hacc with h1
          injection h1 with h2 h3
          subst h2; subst h3
          exact Or.inr ⟨List.mem_cons_self _ _, hsearch⟩
        | some p =>
          obtain ⟨m0, td0⟩ := p
          simp only [] at hacc
          by_cases hlt : m1.mstart < m0.mstart
          · rw [if_pos hlt] at hacc
            injection hacc with h1
            injection h1 with h2 h3
            subst h2; subst h3
            exact Or.inr ⟨List.mem_cons_self _ _, hsearch⟩
          · rw [if_neg hlt] at hacc
            exact Or.inl hacc
    · exact Or.inr ⟨List.mem_cons_of_mem _ hmem, hs⟩

/-- A successful `findEarliest` comes from a registered definition's search
at the given position. -/
theorem findEarliest_sound {defs : List TagDef} {raw : Str} {pos : Nat}
    {m : RegexMatch} {td : TagDef}
    (h : findEarliest defs raw pos = some (m, td)) :
    td ∈ defs ∧ td.search raw pos = some m := by
  rcases foldlEarliest_sound raw pos defs none m td h with hacc | hok
  · exact absurd hacc (by simp)
  · exact hok

/-- For a well-formed pattern table the earliest match respects the regex
search contract: it starts at or after the cursor, is non-empty, ends inside
the string, and its content group is strictly shorter than the match. -/
theorem findEarliest_valid {defs : List TagDef} (hv : ValidDefs defs)
    {raw : Str} {pos : Nat} {m : RegexMatch} {td : TagDef}
    (h : findEarliest defs raw pos = some (m, td)) :
    pos ≤ m.mstart ∧ m.mstart < m.mend ∧ m.mend ≤ raw.length ∧
      ∀ c, m.content = some c → c.length < m.mend - m.mstart := by
  obtain ⟨hmem, hs⟩ := findEarliest_sound h
  exact hv td hmem raw pos m hs

/-- Step equation: cursor at or past the end, the loop stops. -/
theorem parseGo_step_stop {defs : List TagDef} {fuel : Nat} {raw : Str}
    {p : Nat} {a : Str} {c : Nat} {t : List InnerTag}
    (hp : ¬ p < raw.length) :
    parseGo defs (fuel + 1) raw p a c t = some (a, t) := by
  rw [parseGo, if_neg hp]

/-- Step equation: no pattern matches from the cursor, the remaining plain
text is appended verbatim and the loop breaks. -/
theorem parseGo_step_nomatch {defs : List TagDef} {fuel : Nat} {raw : Str}
    {p : Nat} {a : Str} {c : Nat} {t : List InnerTag}
    (hp : p < raw.length) (he : findEarliest defs raw p = none) :
    parseGo defs (fuel + 1) raw p a c t = some (a ++ raw.drop p, t) := by
  rw [parseGo, if_pos hp, he]

/-- Step equation: a match is found, the inner parse runs on the content
group and the loop continues past the match's end. -/
theorem parseGo_step_match {defs : List TagDef} {fuel : Nat} {raw : Str}
    {p : Nat} {a : Str} {c : Nat} {t : List InnerTag} {m : RegexMatch}
    {td : TagDef}
    (hp : p < raw.length) (he : findEarliest defs raw p = some (m, td)) :
    parseGo defs (fuel + 1) raw p a c t =
      match parseGo defs fuel (m.content.getD []) 0 [] 0 [] with
      | none => none
      | some (innerCleaned, childTags) =>
        parseGo defs fuel raw m.mend
          (a ++ extractSlice raw p m.mstart ++ innerCleaned)
          (c + (extractSlice raw p m.mstart).length + innerCleaned.length)
          (t ++ [InnerTag.mk td.name m.metadata
            ⟨c + (extractSlice raw p m.mstart).length,
              c + (extractSlice raw p m.mstart).length + innerCleaned.length⟩
            childTags]) := by
  rw [parseGo, if_pos hp, he]

/-- Fuel monotonicity: a result obtained with some fuel is preserved by any
larger fuel. -/
theorem parseGo_mono (defs : List TagDef) :
    ∀ (f g : Nat) (raw : Str) (posRaw : Nat) (acc : Str) (posC : Nat)
      (tags : List InnerTag) (out : Str × List InnerTag), f ≤ g →
      parseGo defs f raw posRaw acc posC tags = some out →
      parseGo defs g raw posRaw acc posC tags = some out := by
  intro f
  induction f with
  | zero => intro g raw p a c t out _ h; simp [parseGo] at h
  | succ f ih =>
    intro g raw p a c t out hfg h
    obtain ⟨g, rfl⟩ : ∃ g', g = g' + 1 := ⟨g - 1, by omega⟩
    by_cases hp : p < raw.length
    · cases he : findEarliest defs raw p with
      | none =>
        rw [parseGo_step_nomatch hp he] at h
        rw [parseGo_step_nomatch hp he]
        exact h
      | some mtd =>
        obtain ⟨m, td⟩ := mtd
        rw [parseGo_step_match hp he] at h
        rw [parseGo_step_match hp he]
        cases hin : parseGo defs f (m.content.getD []) 0 [] 0 [] with
        | none => rw [hin] at h; exact absurd h (by simp)
        | some r =>
          obtain ⟨ic, ct⟩ := r
          rw [hin] at h
          rw [ih g _ _ _ _ _ _ (by omega) hin]
          exact ih g _ _ _ _ _ _ (by omega) h
    · rw [parseGo_step_stop hp] at h
      rw [parseGo_step_stop hp]
      exact h

/-- Two successful runs (any fuels) agree. -/
theorem parseGo_unique {defs : List TagDef} {f g : Nat} {raw : Str}
    {posRaw : Nat} {acc : Str} {posC : Nat} {tags : List InnerTag}
    {o1 o2 : Str × List InnerTag}
    (h1 : parseGo defs f raw posRaw acc posC tags = some o1)
    (h2 : parseGo defs g raw posRaw acc posC tags = some o2) : o1 = o2 := by
  have e1 := parseGo_mono defs f (f + g) raw posRaw acc posC tags o1
    (by omega) h1
  have e2 := parseGo_mono defs g (f + g) raw posRaw acc posC tags o2
    (by omega) h2
  rw [e1] at e2
  exact Option.some.inj e2

/-- Termination of `parse_text_and_extract_inner_tags` for a well-formed
pattern table: the fuel bound `length * (length + 2) + (length - pos)` is
always sufficient, i.e. the Python `while` loop finishes. -/
theorem parseGo_total {defs : List TagDef} (hv : ValidDefs defs) :
    ∀ (fuel : Nat) (raw : Str) (posRaw : Nat) (acc : Str) (posC : Nat)
      (tags : List InnerTag),
      raw.length * (raw.length + 2) + (raw.length - posRaw) < fuel →
      (parseGo defs fuel raw posRaw acc posC tags).isSome := by
  intro fuel
  induction fuel with
  | zero =>
    intro raw p a c t h
    exact absurd h (Nat.not_lt_zero _)
  | succ fuel ih =>
    intro raw p a c t hfuel
    by_cases hp : p < raw.length
    · cases he : findEarliest defs raw p with
      | none => rw [parseGo_step_nomatch hp he]; simp
      | some mtd =>
        obtain ⟨m, td⟩ := mtd
        rw [parseGo_step_match hp he]
        obtain ⟨h1, h2, h3, h4⟩ := findEarliest_valid hv he
        have hinner :
            (parseGo defs fuel (m.content.getD []) 0 [] 0 []).isSome := by
          apply ih
          have hclen : (m.content.getD []).length + 1 ≤ raw.length := by
            cases hc : m.content with
            | none => simp; omega
            | some cval =>
              have := h4 cval hc
              simp only [Option.getD_some]
              omega
          have hmul : (m.content.getD []).length * ((m.content.getD []).length + 2)
              ≤ (raw.length - 1) * (raw.length + 1) :=
            Nat.mul_le_mul (by omega) (by omega)
          have hexp : (raw.length - 1) * (raw.length + 1) + raw.length + 1
              ≤ raw.length * (raw.length + 2) := by
            obtain ⟨l, hl⟩ : ∃ l, raw.length = l + 1 := ⟨raw.length - 1, by omega⟩
            rw [hl]
            simp only [Nat.add_sub_cancel]
            nlinarith
          omega
        cases hin : parseGo defs fuel (m.content.getD []) 0 [] 0 [] with
        | none => rw [hin] at hinner; simp at hinner
        | some r =>
          obtain ⟨ic, ct⟩ := r
          apply ih
          have hK : raw.length - m.mend < raw.length - p := by omega
          generalize raw.length * (raw.length + 2) = K at hfuel ⊢
          omega
    · rw [parseGo_step_stop hp]; simp

/-- The top-level fuel is sufficient, so the parser's fuelled run succeeds
on every input (the loop always terminates, consuming the input). -/
theorem parse_total {defs : List TagDef} (hv : ValidDefs defs) (raw : Str) :
    (parseGo defs (parseFuel raw) raw 0 [] 0 []).isSome := by
  apply parseGo_total hv
  unfold parseFuel
  omega

theorem extractSlice_length (s : Str) (i j : Nat) :
    (extractSlice s i j).length = min j s.length - i := by
  simp [extractSlice]

/-- Slicing below the boundary of an append ignores the appended part. -/
theorem extractSlice_append_left {a : Str} (b : Str) {i j : Nat}
    (hj : j ≤ a.length) : extractSlice (a ++ b) i j = extractSlice a i j := by
  unfold extractSlice
  rw [List.take_append_of_le_length hj]

/-- The slice of an append taken exactly over the second part. -/
theorem extractSlice_append_exact (a b : Str) :
    extractSlice (a ++ b) a.length (a.length + b.length) = b := by
  unfold extractSlice
  rw [List.take_append, List.take_length, List.drop_left]

/-- Linear scan for the smallest index at or after `start` (within `fuel`
candidates) satisfying `p`; models the leftmost-match behaviour of
`str.find` / regex searching for the concrete pattern instances. -/
def firstSuchThat (p : Nat → Bool) : Nat → Nat → Option Nat
| _, 0 => none
| start, fuel + 1 =>
  if p start then some start else firstSuchThat p (start + 1) fuel

theorem firstSuchThat_sound (p : Nat → Bool) :
    ∀ (fuel start i : Nat), firstSuchThat p start fuel = some i →
      p i = true ∧ start ≤ i ∧ i < start + fuel ∧
        ∀ j, start ≤ j → j < i → p j = false := by
  intro fuel
  induction fuel with
  | zero => intro start i h; simp [firstSuchThat] at h
  | succ fuel ih =>
    intro start i h
    rw [firstSuchThat] at h
    by_cases hs : p start
    · rw [if_pos hs] at h
      injection h with h
      subst h
      exact ⟨hs, Nat.le_refl _, by omega, fun j h1 h2 => absurd h1 (by omega)⟩
    · rw [if_neg hs] at h
      obtain ⟨hpi, hle, hlt, hmin⟩ := ih (start + 1) i h
      refine ⟨hpi, by omega, by omega, fun j h1 h2 => ?_⟩
      by_cases hj : j = start
      · subst hj; exact Bool.eq_false_iff.mpr hs
      · exact hmin j (by omega) h2

theorem firstSuchThat_none (p : Nat → Bool) :
    ∀ (fuel start i : Nat), firstSuchThat p start fuel = none →
      start ≤ i → i < start + fuel → p i = false := by
  intro fuel
  induction fuel with
  | zero => intro start i _ h1 h2; omega
  | succ fuel ih =>
    intro start i h h1 h2
    rw [firstSuchThat] at h
    by_cases hs : p start
    · rw [if_pos hs] at h; exact absurd h (by simp)
    · rw [if_neg hs] at h
      by_cases hi : i = start
      · subst hi; exact Bool.eq_false_iff.mpr hs
      · exact ih (start + 1) i h (by omega) (by omega)

/-- A concrete inline-tag pattern used to instantiate the abstract table in
witnesses: a single-character open/close delimiter pair with the enclosed
text as the `content` group (the shape of the underline/bold/italic-style
paired markers described in the spec). -/
def pairSearch (o c : Char) (s : Str) (pos : Nat) : Option RegexMatch :=
  match firstSuchThat (fun i => decide (s[i]? = some o)) pos
      (s.length - pos) with
  | none => none
  | some i =>
    match firstSuchThat (fun j => decide (s[j]? = some c)) (i + 1)
        (s.length - (i + 1)) with
    | none => none
    | some j => some ⟨i, j + 1, some (extractSlice s (i + 1) j), []⟩

/-- A concrete one-entry tag table, for instantiating the parametric claim
theorems at concrete inputs. -/
def demoDefs : List TagDef := [⟨"pair", pairSearch '<' '>'⟩]

theorem pairSearch_valid (o c : Char) : ValidTagDef ⟨"pair", pairSearch o c⟩ := by
  intro s pos m h
  replace h : pairSearch o c s pos = some m := h
  unfold pairSearch at h
  cases h1 : firstSuchThat (fun i => decide (s[i]? = some o)) pos
      (s.length - pos) with
  | none => rw [h1] at h; exact absurd h (by simp)
  | some i =>
    rw [h1] at h
    replace h :
        (match firstSuchThat (fun j => decide (s[j]? = some c)) (i + 1)
            (s.length - (i + 1)) with
          | none => none
          | some j =>
            some (⟨i, j + 1, some (extractSlice s (i + 1) j), []⟩ : RegexMatch))
          = some m := h
    cases h2 : firstSuchThat (fun j => decide (s[j]? = some c)) (i + 1)
        (s.length - (i + 1)) with
    | none => rw [h2] at h; exact absurd h (by simp)
    | some j =>
      rw [h2] at h
      injection h with h
      subst h
      obtain ⟨hpi, hle1, _, _⟩ := firstSuchThat_sound _ _ _ _ h1
      obtain ⟨hpj, hle2, _, _⟩ := firstSuchThat_sound _ _ _ _ h2
      have hjlen : j < s.length := by
        have := of_decide_eq_true hpj
        have := List.getElem?_eq_some.mp this
        exact this.1
      show pos ≤ i ∧ i < j + 1 ∧ j + 1 ≤ s.length ∧
        ∀ cs, some (extractSlice s (i + 1) j) = some cs →
          cs.length < (j + 1) - i
      refine ⟨hle1, by omega, by omega, fun cs hc => ?_⟩
      injection hc with hc
      subst hc
      rw [extractSlice_length]
      omega

theorem demoDefs_valid : ValidDefs demoDefs := by
  intro td h
  rcases List.mem_singleton.mp h with rfl
  exact pairSearch_valid '<' '>'

/-- Claim C6: malformed or unmatched inline markers never raise and are
retained verbatim with no annotation created.  Formalised: (a) on any input
where no registered pattern matches (search from the cursor finds nothing),
the parser returns the input verbatim with an empty annotation list; (b) at
any loop state where no pattern matches from the cursor, the whole
remaining text — including any malformed marker — is appended verbatim and
no further annotation is created. -/
theorem c6_unmatched_markup (defs : List TagDef) (raw : Str)
    (h : findEarliest defs raw 0 = none) :
    parse_text_and_extract_inner_tags defs raw = (raw, []) ∧
    (∀ (fuel p : Nat) (a : Str) (c : Nat) (t : List InnerTag),
      p < raw.length → findEarliest defs raw p = none →
      parseGo defs (fuel + 1) raw p a c t = some (a ++ raw.drop p, t)) := by
  constructor
  · unfold parse_text_and_extract_inner_tags
    have hfuel : parseFuel raw = (parseFuel raw - 1) + 1 := by
      unfold parseFuel; omega
    by_cases hlen : 0 < raw.length
    · rw [hfuel, parseGo_step_nomatch hlen h]
      simp
    · have hnil : raw = [] := List.length_eq_zero.mp (by omega)
      subst hnil
      rw [hfuel, parseGo_step_stop hlen]
      simp
  · intro fuel p a c t hp he
    exact parseGo_step_nomatch hp he

/-- Witness for C6 at the concrete table `demoDefs` and an input with no
marker at all. -/
theorem c6_witness :
    parse_text_and_extract_inner_tags demoDefs ['a', 'b'] = (['a', 'b'], []) ∧
    (∀ (fuel p : Nat) (a : Str) (c : Nat) (t : List InnerTag),
      p < (['a', 'b'] : Str).length →
      findEarliest demoDefs ['a', 'b'] p = none →
      parseGo demoDefs (fuel + 1) ['a', 'b'] p a c t =
        some (a ++ (['a', 'b'] : Str).drop p, t)) :=
  c6_unmatched_markup demoDefs ['a', 'b'] (by rfl)

/-- The property claim C1 states for every annotation returned by
`parse_text_and_extract_inner_tags` into a cleaned text `cleaned`: its
half-open interval lies in the coordinate space of `cleaned`, and there is a
raw content fragment (the tag's content group; `""` for a tag whose pattern
defines no content group, which forces `start = end`) whose recursive parse
produces exactly `cleaned[start:end]` as cleaned text and exactly the
annotation's `children` as annotation list; in particular `end - start` is
the length of that recursively cleaned content. -/
def TagSpec (defs : List TagDef) (cleaned : Str) (t : InnerTag) : Prop :=
  t.position.start_index ≤ t.position.end_index ∧
  t.position.end_index ≤ cleaned.length ∧
  ∃ rawInner : Str,
    parse_text_and_extract_inner_tags defs rawInner =
      (extractSlice cleaned t.position.start_index t.position.end_index,
        t.children) ∧
    t.position.end_index - t.position.start_index =
      (parse_text_and_extract_inner_tags defs rawInner).1.length

/-- `TagSpec` is stable under extending the cleaned text on the right (the
parser only ever appends to the cleaned accumulator). -/
theorem TagSpec_extend {defs : List TagDef} {a : Str} (b : Str) {t : InnerTag}
    (h : TagSpec defs a t) : TagSpec defs (a ++ b) t := by
  obtain ⟨h1, h2, rawInner, h3, h4⟩ := h
  refine ⟨h1, by simp; omega, rawInner, ?_, h4⟩
  rw [extractSlice_append_left b h2]
  exact h3

/-- Loop invariant for claim C1: if the cleaned-position counter equals the
accumulator length and all accumulated annotations satisfy `TagSpec` for
the accumulator, then the final cleaned text extends the accumulator and
all produced annotations satisfy `TagSpec` for the final cleaned text. -/
theorem parseGo_tagSpec {defs : List TagDef} (hv : ValidDefs defs) :
    ∀ (fuel : Nat) (raw : Str) (p : Nat) (acc : Str) (posC : Nat)
      (tags : List InnerTag) (out : Str × List InnerTag),
      parseGo defs fuel raw p acc posC tags = some out →
      posC = acc.length →
      (∀ t ∈ tags, TagSpec defs acc t) →
      (∃ suffix, out.1 = acc ++ suffix) ∧
        ∀ t ∈ out.2, TagSpec defs out.1 t := by
  intro fuel
  induction fuel with
  | zero => intro raw p acc posC tags out h; simp [parseGo] at h
  | succ fuel ih =>
    intro raw p acc posC tags out h hpc htags
    by_cases hp : p < raw.length
    · cases he : findEarliest defs raw p with
      | none =>
        rw [parseGo_step_nomatch hp he] at h
        injection h with h
        subst h
        exact ⟨⟨raw.drop p, rfl⟩, fun t ht => TagSpec_extend _ (htags t ht)⟩
      | some mtd =>
        obtain ⟨m, td⟩ := mtd
        rw [parseGo_step_match hp he] at h
        cases hin : parseGo defs fuel (m.content.getD []) 0 [] 0 [] with
        | none => rw [hin] at h; exact absurd h (by simp)
        | some r =>
          obtain ⟨ic, ct⟩ := r
          rw [hin] at h
          have hparse :
              parse_text_and_extract_inner_tags defs (m.content.getD [])
                = (ic, ct) := by
            obtain ⟨r2, hr2⟩ := Option.isSome_iff_exists.mp
              (parse_total hv (m.content.getD []))
            unfold parse_text_and_extract_inner_tags
            rw [hr2]
            have := parseGo_unique hin hr2
            rw [← this]
            rfl
          have hnew : TagSpec defs (acc ++ extractSlice raw p m.mstart ++ ic)
              (InnerTag.mk td.name m.metadata
                ⟨posC + (extractSlice raw p m.mstart).length,
                  posC + (extractSlice raw p m.mstart).length + ic.length⟩
                ct) := by
            refine ⟨?_, ?_, m.content.getD [], ?_, ?_⟩
            · show posC + (extractSlice raw p m.mstart).length
                ≤ posC + (extractSlice raw p m.mstart).length + ic.length
              omega
            · show posC + (extractSlice raw p m.mstart).length + ic.length
                ≤ (acc ++ extractSlice raw p m.mstart ++ ic).length
              simp [hpc]
              omega
            · have hstart : posC + (extractSlice raw p m.mstart).length
                  = (acc ++ extractSlice raw p m.mstart).length := by
                simp [hpc]
              show parse_text_and_extract_inner_tags defs (m.content.getD [])
                = (extractSlice (acc ++ extractSlice raw p m.mstart ++ ic)
                    (posC + (extractSlice raw p m.mstart).length)
                    (posC + (extractSlice raw p m.mstart).length + ic.length),
                  ct)
              rw [hstart, extractSlice_append_exact]
              exact hparse
            · show posC + (extractSlice raw p m.mstart).length + ic.length
                - (posC + (extractSlice raw p m.mstart).length)
                = (parse_text_and_extract_inner_tags defs
                    (m.content.getD [])).1.length
              rw [hparse]
              show posC + (extractSlice raw p m.mstart).length + ic.length
                - (posC + (extractSlice raw p m.mstart).length) = ic.length
              omega
          have hres := ih raw m.mend
            (acc ++ extractSlice raw p m.mstart ++ ic)
            (posC + (extractSlice raw p m.mstart).length + ic.length)
            (tags ++ [InnerTag.mk td.name m.metadata
              ⟨posC + (extractSlice raw p m.mstart).length,
                posC + (extractSlice raw p m.mstart).length + ic.length⟩
              ct])
            out h (by simp [hpc]; omega) ?_
          · obtain ⟨⟨suffix, hsuf⟩, htail⟩ := hres
            refine ⟨⟨extractSlice raw p m.mstart ++ ic ++ suffix, ?_⟩, htail⟩
            rw [hsuf]
            simp
          · intro t ht
            rcases List.mem_append.mp ht with hmem | hmem
            · exact TagSpec_extend _ (TagSpec_extend _ (htags t hmem))
            · rcases List.mem_singleton.mp hmem with rfl
              exact hnew
    · rw [parseGo_step_stop hp] at h
      injection h with h
      subst h
      exact ⟨⟨[], by simp⟩, htags⟩

/-- Claim C1: every annotation returned by
`parse_text_and_extract_inner_tags` has its `[start, end)` interval in the
coordinate space of the returned cleaned text, `cleanedText[start:end]`
equals the cleaned text produced by recursively parsing the tag's content
group (so `end - start` is that content's cleaned length), and a tag whose
pattern defines no content group recurses on the empty content, forcing
`start = end` at the insertion position. -/
theorem c1_annotation_offsets (defs : List TagDef) (hv : ValidDefs defs)
    (raw : Str) :
    ∀ t ∈ (parse_text_and_extract_inner_tags defs raw).2,
      TagSpec defs (parse_text_and_extract_inner_tags defs raw).1 t := by
  obtain ⟨out, hout⟩ := Option.isSome_iff_exists.mp (parse_total hv raw)
  have hdef : parse_text_and_extract_inner_tags defs raw = out := by
    unfold parse_text_and_extract_inner_tags
    rw [hout]
    rfl
  rw [hdef]
  exact (parseGo_tagSpec hv _ _ _ _ _ _ _ hout rfl
    (fun t ht => absurd ht (List.not_mem_nil t))).2

/-- Witness for C1 at the concrete table `demoDefs` and a concrete input
containing one paired marker, instantiated at the produced annotation. -/
theorem c1_witness :
    TagSpec demoDefs (parse_text_and_extract_inner_tags demoDefs
      ['x', '<', 'a', '>', 'y']).1 (InnerTag.mk "pair" [] ⟨1, 2⟩ []) :=
  c1_annotation_offsets demoDefs demoDefs_valid ['x', '<', 'a', '>', 'y']
    (InnerTag.mk "pair" [] ⟨1, 2⟩ []) (by
      have h : (parse_text_and_extract_inner_tags demoDefs
          ['x', '<', 'a', '>', 'y']).2 =
          [InnerTag.mk "pair" [] ⟨1, 2⟩ []] := rfl
      rw [h]
      exact List.mem_singleton.mpr rfl)

/-- Claim C9: for every input string the parser terminates having consumed
the full input once, the raw cursor strictly advancing past each selected
match's end.  Formalised for every pattern table satisfying the regex
search contract: the fuelled embedding of the `while` loop succeeds within
the explicit fuel bound on every input (termination), and every selected
match satisfies `current_position_raw < match.end`, so the cursor update
`current_position_raw = earliest_match.end()` strictly advances. -/
theorem c9_terminates_and_advances (defs : List TagDef) (hv : ValidDefs defs) :
    (∀ raw : Str, (parseGo defs (parseFuel raw) raw 0 [] 0 []).isSome) ∧
    (∀ (raw : Str) (p : Nat) (m : RegexMatch) (td : TagDef),
      findEarliest defs raw p = some (m, td) → p < m.mend) := by
  constructor
  · intro raw
    exact parse_total hv raw
  · intro raw p m td h
    obtain ⟨h1, h2, _, _⟩ := findEarliest_valid hv h
    omega

/-- Witness for C9 at the concrete table `demoDefs`. -/
theorem c9_witness :
    (∀ raw : Str, (parseGo demoDefs (parseFuel raw) raw 0 [] 0 []).isSome) ∧
    (∀ (raw : Str) (p : Nat) (m : RegexMatch) (td : TagDef),
      findEarliest demoDefs raw p = some (m, td) → p < m.mend) :=
  c9_terminates_and_advances demoDefs demoDefs_valid

/-- The ASCII whitespace characters stripped by Python `str.strip()` (the
claims only involve ASCII text; Unicode whitespace is not modelled). -/
def pyIsSpace (c : Char) : Bool :=
  c = ' ' || c = '\t' || c = '\n' || c = '\r' || c = '\x0b' || c = '\x0c'

/-- Python truthiness of `s.strip()`: `pyStripEmpty s = true` iff `s.strip()`
is falsy, i.e. every character of `s` is whitespace. -/
def pyStripEmpty (s : Str) : Bool := s.all pyIsSpace

/-- `LumiSpan` of `shared/lumi_doc.py` (modelled from the spec data model).
The id comes from the external injectable unique-id source. -/
structure LumiSpan where
  id : String
  text : Str
  inner_tags : List InnerTag

/-- `shared.utils.get_unique_id` (modelled from the spec: an external,
injectable, deterministic unique-id source producing opaque strings; no
claim depends on id values, so it is instantiated by a constant). -/
def get_unique_id : String := "uid"

/-- Python `cleaned_text.find(sentence_text, offset)`: the smallest index at
or after `offset` where `pat` occurs in `s` (`none` models `-1`). -/
def findFrom (pat s : Str) (pos : Nat) : Option Nat :=
  firstSuchThat
    (fun i => decide (i + pat.length ≤ s.length ∧
      extractSlice s i (i + pat.length) = pat))
    pos (s.length + 1 - pos)

theorem findFrom_sound {pat s : Str} {pos i : Nat}
    (h : findFrom pat s pos = some i) :
    pos ≤ i ∧ i + pat.length ≤ s.length ∧
      extractSlice s i (i + pat.length) = pat := by
  obtain ⟨hp, hle, _, _⟩ := firstSuchThat_sound _ _ _ _ h
  obtain ⟨h1, h2⟩ := of_decide_eq_true hp
  exact ⟨hle, h1, h2⟩

/-- The per-annotation body of the `for inner_tag in all_inner_tags` loop of
`create_lumi_spans` (import_pipeline.py lines 664-696): the inclusive
overlap test, clamping to sentence-local coordinates (Python
`max(0, start - sentence_start)` is Nat truncated subtraction), the
defensive `tag_start_relative <= tag_end_relative and tag_end_relative <=
len(sentence)` guard, and the copied tag (metadata `.copy()` is the
identity in this pure model; `children` preserved). -/
def clampTagToSentence (sentLen sentStart : Nat) (t : InnerTag) :
    Option InnerTag :=
  if t.position.start_index ≤ sentStart + sentLen ∧
      sentStart ≤ t.position.end_index then
    if t.position.start_index - sentStart
        ≤ min sentLen (t.position.end_index - sentStart) ∧
        min sentLen (t.position.end_index - sentStart) ≤ sentLen then
      some (InnerTag.mk t.tagName t.metadata
        ⟨t.position.start_index - sentStart,
          min sentLen (t.position.end_index - sentStart)⟩ t.children)
    else none
  else none

/-- The sentence loop of `create_lumi_spans` (import_pipeline.py lines
652-707): locate each sentence in the cleaned text starting at the end of
the previous one (`continue` silently on a failed find, which "should not
happen"), attach the clamped overlapping annotations, and advance the
search offset. -/
def createLumiSpansGo (cleaned : Str) (tags : List InnerTag) :
    List Str → Nat → List LumiSpan
| [], _ => []
| sent :: rest, offset =>
  match findFrom sent cleaned offset with
  | none => createLumiSpansGo cleaned tags rest offset
  | some s =>
    (⟨get_unique_id, sent,
        tags.filterMap (clampTagToSentence sent.length s)⟩ : LumiSpan)
      :: createLumiSpansGo cleaned tags rest (s + sent.length)

/-- `create_lumi_spans(cleaned_text, all_inner_tags, skip_tokenize)`
(import_pipeline.py lines 619-707).  The external sentence segmenter
(`tokenize.sent_tokenize` resp. `tokenize_sentences`) is a black-box
collaborator and is passed as the `segmenter` parameter. -/
def create_lumi_spans (segmenter : Str → List Str) (cleaned : Str)
    (tags : List InnerTag) (skipTokenize : Bool) : List LumiSpan :=
  if pyStripEmpty cleaned && tags.isEmpty then []
  else
    let sentences := if skipTokenize then [] else segmenter cleaned
    if sentences.isEmpty || skipTokenize then
      if !cleaned.isEmpty || !tags.isEmpty then
        [⟨get_unique_id, cleaned, tags⟩]
      else []
    else createLumiSpansGo cleaned tags sentences 0

/-- The sentence-location scan on its own: the sentences that are found in
the cleaned text, each with its located start offset, scanned monotonically
left to right. -/
def locateSentences (cleaned : Str) : List Str → Nat → List (Str × Nat)
| [], _ => []
| sent :: rest, offset =>
  match findFrom sent cleaned offset with
  | none => locateSentences cleaned rest offset
  | some s => (sent, s) :: locateSentences cleaned rest (s + sent.length)

theorem createLumiSpansGo_step_none {cleaned sent : Str}
    {tags : List InnerTag} {rest : List Str} {offset : Nat}
    (h : findFrom sent cleaned offset = none) :
    createLumiSpansGo cleaned tags (sent :: rest) offset =
      createLumiSpansGo cleaned tags rest offset := by
  rw [createLumiSpansGo, h]

theorem createLumiSpansGo_step_some {cleaned sent : Str}
    {tags : List InnerTag} {rest : List Str} {offset s : Nat}
    (h : findFrom sent cleaned offset = some s) :
    createLumiSpansGo cleaned tags (sent :: rest) offset =
      (⟨get_unique_id, sent,
        tags.filterMap (clampTagToSentence sent.length s)⟩ : LumiSpan)
        :: createLumiSpansGo cleaned tags rest (s + sent.length) := by
  rw [createLumiSpansGo, h]

theorem locateSentences_step_none {cleaned sent : Str} {rest : List Str}
    {offset : Nat} (h : findFrom sent cleaned offset = none) :
    locateSentences cleaned (sent :: rest) offset =
      locateSentences cleaned rest offset := by
  rw [locateSentences, h]

theorem locateSentences_step_some {cleaned sent : Str} {rest : List Str}
    {offset s : Nat} (h : findFrom sent cleaned offset = some s) :
    locateSentences cleaned (sent :: rest) offset =
      (sent, s) :: locateSentences cleaned rest (s + sent.length) := by
  rw [locateSentences, h]

theorem createLumiSpansGo_eq_locate (cleaned : Str) (tags : List InnerTag) :
    ∀ (sentences : List Str) (offset : Nat),
      createLumiSpansGo cleaned tags sentences offset =
        (locateSentences cleaned sentences offset).map
          (fun p => (⟨get_unique_id, p.1,
            tags.filterMap (clampTagToSentence p.1.length p.2)⟩ : LumiSpan)) := by
  intro sentences
  induction sentences with
  | nil => intro offset; rfl
  | cons sent rest ih =>
    intro offset
    cases h : findFrom sent cleaned offset with
    | none =>
      rw [createLumiSpansGo_step_none h, locateSentences_step_none h, ih]
    | some s =>
      rw [createLumiSpansGo_step_some h, locateSentences_step_some h,
        List.map_cons, ih]

/-- For a well-formed annotation (`start ≤ end`, the data-model invariant),
the defensive inner guard always holds, so a clamped copy is attached
exactly under the inclusive overlap test. -/
theorem clampTagToSentence_isSome_iff {t : InnerTag}
    (hwf : t.position.start_index ≤ t.position.end_index)
    (sentLen sentStart : Nat) :
    (clampTagToSentence sentLen sentStart t).isSome = true ↔
      (t.position.start_index ≤ sentStart + sentLen ∧
        sentStart ≤ t.position.end_index) := by
  unfold clampTagToSentence
  by_cases hov : t.position.start_index ≤ sentStart + sentLen ∧
      sentStart ≤ t.position.end_index
  · rw [if_pos hov, if_pos (by omega)]
    simp [hov]
  · rw [if_neg hov]
    simp [hov]

/-- Shape of a clamped copy: same name, metadata and children, bounds
rewritten to `max(0, start - sentenceStart)` (Nat truncated subtraction)
and `min(len(sentence), end - sentenceStart)`, and the result satisfies
`0 ≤ start ≤ end ≤ len(sentence)`. -/
theorem clampTagToSentence_some {sentLen sentStart : Nat} {t u : InnerTag}
    (h : clampTagToSentence sentLen sentStart t = some u) :
    u.tagName = t.tagName ∧ u.metadata = t.metadata ∧
    u.children = t.children ∧
    u.position.start_index = t.position.start_index - sentStart ∧
    u.position.end_index = min sentLen (t.position.end_index - sentStart) ∧
    u.position.start_index ≤ u.position.end_index ∧
    u.position.end_index ≤ sentLen := by
  unfold clampTagToSentence at h
  by_cases hov : t.position.start_index ≤ sentStart + sentLen ∧
      sentStart ≤ t.position.end_index
  · rw [if_pos hov] at h
    by_cases hg : t.position.start_index - sentStart
        ≤ min sentLen (t.position.end_index - sentStart) ∧
        min sentLen (t.position.end_index - sentStart) ≤ sentLen
    · rw [if_pos hg] at h
      injection h with h
      subst h
      refine ⟨rfl, rfl, rfl, rfl, rfl, ?_, ?_⟩
      · exact hg.1
      · exact hg.2
    · rw [if_neg hg] at h
      exact absurd h (by simp)
  · rw [if_neg hov] at h
    exact absurd h (by simp)

/-- Claim C2: with tokenization enabled and the segmenter yielding at least
one sentence, `create_lumi_spans` produces one span per located sentence,
whose annotation list is exactly the clamped copies of the input
annotations that pass the inclusive overlap test
`start ≤ sentenceEnd ∧ sentenceStart ≤ end`; each copy keeps name, metadata
and children, has its bounds rewritten to `start - sentenceStart`
(truncated, i.e. `max(0, …)`) and `min(len(sentence), end - sentenceStart)`,
and satisfies `0 ≤ start ≤ end ≤ len(span text)`.  An annotation whose
interval overlaps several located sentences is therefore attached,
independently clamped, to each of their spans.  The hypothesis `hwf` is the
data-model invariant `start ≤ end` on the input annotations. -/
theorem c2_sentence_redistribution (segmenter : Str → List Str)
    (cleaned : Str) (tags : List InnerTag)
    (hwf : ∀ t ∈ tags, t.position.start_index ≤ t.position.end_index)
    (hne : ¬(pyStripEmpty cleaned = true ∧ tags = []))
    (hseg : segmenter cleaned ≠ []) :
    create_lumi_spans segmenter cleaned tags false =
      (locateSentences cleaned (segmenter cleaned) 0).map
        (fun p => (⟨get_unique_id, p.1,
          tags.filterMap (clampTagToSentence p.1.length p.2)⟩ : LumiSpan)) ∧
    (∀ (sentLen sentStart : Nat), ∀ t ∈ tags,
      (clampTagToSentence sentLen sentStart t).isSome = true ↔
        (t.position.start_index ≤ sentStart + sentLen ∧
          sentStart ≤ t.position.end_index)) ∧
    (∀ (sentLen sentStart : Nat) (t u : InnerTag),
      clampTagToSentence sentLen sentStart t = some u →
      u.tagName = t.tagName ∧ u.metadata = t.metadata ∧
      u.children = t.children ∧
      u.position.start_index = t.position.start_index - sentStart ∧
      u.position.end_index = min sentLen (t.position.end_index - sentStart) ∧
      u.position.start_index ≤ u.position.end_index ∧
      u.position.end_index ≤ sentLen) := by
  refine ⟨?_, ?_, ?_⟩
  · have hcond : (pyStripEmpty cleaned && tags.isEmpty) = false := by
      cases hb : pyStripEmpty cleaned with
      | false => rfl
      | true =>
        cases htg : tags with
        | nil => exact absurd ⟨hb, htg⟩ hne
        | cons a l => rfl
    have hsegF : (segmenter cleaned).isEmpty = false := by
      cases hsg : segmenter cleaned with
      | nil => exact absurd hsg hseg
      | cons a l => rfl
    unfold create_lumi_spans
    simp only [hcond, hsegF, Bool.false_eq_true, if_false, Bool.or_self,
      Bool.or_false]
    exact createLumiSpansGo_eq_locate cleaned tags (segmenter cleaned) 0
  · intro sentLen sentStart t ht
    exact clampTagToSentence_isSome_iff (hwf t ht) sentLen sentStart
  · intro sentLen sentStart t u h
    exact clampTagToSentence_some h

/-- Concrete segmenter instance for the C2 witness: two fixed sentences. -/
def c2segDemo : Str → List Str :=
  fun _ => [['H', 'i', '.'], ['Y', 'o']]

/-- Concrete cleaned text for the C2 witness. -/
def c2cleanedDemo : Str := ['H', 'i', '.', ' ', 'Y', 'o']

/-- Concrete annotation list for the C2 witness: one annotation crossing
both sentences. -/
def c2tagsDemo : List InnerTag := [InnerTag.mk "b" [] ⟨1, 5⟩ []]

/-- Witness for C2 at concrete inputs. -/
theorem c2_witness :
    create_lumi_spans c2segDemo c2cleanedDemo c2tagsDemo false =
      (locateSentences c2cleanedDemo (c2segDemo c2cleanedDemo) 0).map
        (fun p => (⟨get_unique_id, p.1,
          c2tagsDemo.filterMap (clampTagToSentence p.1.length p.2)⟩ :
            LumiSpan)) ∧
    (∀ (sentLen sentStart : Nat), ∀ t ∈ c2tagsDemo,
      (clampTagToSentence sentLen sentStart t).isSome = true ↔
        (t.position.start_index ≤ sentStart + sentLen ∧
          sentStart ≤ t.position.end_index)) ∧
    (∀ (sentLen sentStart : Nat) (t u : InnerTag),
      clampTagToSentence sentLen sentStart t = some u →
      u.tagName = t.tagName ∧ u.metadata = t.metadata ∧
      u.children = t.children ∧
      u.position.start_index = t.position.start_index - sentStart ∧
      u.position.end_index = min sentLen (t.position.end_index - sentStart) ∧
      u.position.start_index ≤ u.position.end_index ∧
      u.position.end_index ≤ sentLen) :=
  c2_sentence_redistribution c2segDemo c2cleanedDemo c2tagsDemo
    (by intro t ht
        rcases List.mem_singleton.mp ht with rfl
        exact Nat.le_of_lt (by decide))
    (fun h => List.noConfusion h.2)
    (by simp [c2segDemo])

/-- Helper for claim C7: whenever the first degenerate check does not fire
and the sentence list is empty (`noSplit` set, or the segmenter yielded
zero sentences), exactly one whole-text span is emitted. -/
theorem create_lumi_spans_single (segmenter : Str → List Str) (cleaned : Str)
    (tags : List InnerTag) (skip : Bool)
    (hcond : (pyStripEmpty cleaned && tags.isEmpty) = false)
    (hsent : (if skip then [] else segmenter cleaned) = []) :
    create_lumi_spans segmenter cleaned tags skip =
      [⟨get_unique_id, cleaned, tags⟩] := by
  have hguard : (!cleaned.isEmpty || !tags.isEmpty) = true := by
    cases hc : cleaned with
    | cons a l => rfl
    | nil =>
      cases htg : tags with
      | cons a l => simp
      | nil =>
        subst hc; subst htg
        simp [pyStripEmpty] at hcond
  unfold create_lumi_spans
  rw [hcond]
  simp only [Bool.false_eq_true, if_false]
  cases skip with
  | true =>
    simp only [if_true, List.isEmpty_nil, Bool.true_or, if_true, hguard]
  | false =>
    simp only [if_false, Bool.false_eq_true] at hsent ⊢
    rw [hsent]
    simp only [List.isEmpty_nil, Bool.true_or, if_true, hguard, if_true]

/-- Counterexample for claim C7 as stated: a non-empty, whitespace-only
text with no annotations, with `noSplit` set (and likewise with a segmenter
yielding zero sentences), produces the empty span list — not the single
whole-text span the claim requires. -/
theorem c7_counterexample :
    ([' '] : Str) ≠ [] ∧
    create_lumi_spans (fun _ => []) [' '] [] true = [] ∧
    create_lumi_spans (fun _ => []) [' '] [] false = [] :=
  ⟨by simp, rfl, rfl⟩

/-- Claim C7, amended: with `noSplit` set, or with the segmenter returning
zero sentences, `create_lumi_spans` returns exactly one span carrying the
full cleaned text and the unmodified annotation list — provided the input
is not whitespace-only with an empty annotation list (in that case the
degenerate first check returns the empty sequence, see C10); and for empty
text with no annotations it returns the empty sequence of spans, not a
single empty span. -/
theorem c7_single_span_fallback :
    (∀ (segmenter : Str → List Str) (cleaned : Str) (tags : List InnerTag)
      (skip : Bool),
      ¬(pyStripEmpty cleaned = true ∧ tags = []) →
      (skip = true ∨ (skip = false ∧ segmenter cleaned = [])) →
      create_lumi_spans segmenter cleaned tags skip =
        [⟨get_unique_id, cleaned, tags⟩]) ∧
    (∀ (segmenter : Str → List Str) (skip : Bool),
      create_lumi_spans segmenter [] [] skip = []) := by
  constructor
  · intro segmenter cleaned tags skip hne hz
    have hcond : (pyStripEmpty cleaned && tags.isEmpty) = false := by
      cases hb : pyStripEmpty cleaned with
      | false => rfl
      | true =>
        cases htg : tags with
        | nil => exact absurd ⟨hb, htg⟩ hne
        | cons a l => rfl
    apply create_lumi_spans_single segmenter cleaned tags skip hcond
    rcases hz with rfl | ⟨rfl, hseg0⟩
    · rfl
    · simpa using hseg0
  · intro segmenter skip
    unfold create_lumi_spans
    simp [pyStripEmpty]

/-- Witness for the amended C7 at concrete inputs. -/
theorem c7_witness :
    create_lumi_spans (fun _ => []) ['a'] [] true =
      [⟨get_unique_id, ['a'], []⟩] ∧
    create_lumi_spans (fun _ => []) [] [] false = [] :=
  ⟨c7_single_span_fallback.1 (fun _ => []) ['a'] [] true
      (fun h => absurd h.1 (by decide)) (Or.inl rfl),
    c7_single_span_fallback.2 (fun _ => []) false⟩

/-- Claim C10: for whitespace-only text (including non-empty such text)
with an empty annotation list, `create_lumi_spans` returns the empty span
sequence regardless of the `noSplit` flag: the degenerate first check
`not cleaned_text.strip() and not all_inner_tags` fires before any
tokenization. -/
theorem c10_whitespace_empty (segmenter : Str → List Str) (cleaned : Str)
    (skip : Bool) (h : pyStripEmpty cleaned = true) :
    create_lumi_spans segmenter cleaned [] skip = [] := by
  unfold create_lumi_spans
  simp [h]

/-- Witness for C10: two spaces, with `noSplit` set. -/
theorem c10_witness :
    create_lumi_spans (fun _ => []) [' ', ' '] [] true = [] :=
  c10_whitespace_empty (fun _ => []) [' ', ' '] true (by decide)

/-- `TextContent` of `shared/lumi_doc.py` (modelled from the spec data
model): source tag name plus ordered spans. -/
structure TextContent where
  tag_name : String
  spans : List LumiSpan

mutual

/-- `ListContent` of `shared/lumi_doc.py` (modelled from the spec data
model). -/
inductive ListContent where
| mk (is_ordered : Bool) (list_items : List ListItem)

/-- `ListItem` of `shared/lumi_doc.py` (modelled from the spec data model):
spans plus at most one nested sublist. -/
inductive ListItem where
| mk (spans : List LumiSpan) (subListContent : Option ListContent)

end

def ListContent.is_ordered : ListContent → Bool
| .mk o _ => o

def ListContent.list_items : ListContent → List ListItem
| .mk _ l => l

def ListItem.spans : ListItem → List LumiSpan
| .mk s _ => s

def ListItem.subListContent : ListItem → Option ListContent
| .mk _ s => s

/-- `ImageContent` of `shared/lumi_doc.py` (modelled from the spec data
model).  `width`/`height` are floats populated by the external
image-extraction collaborator and are always `0.0` inside this core; they
are modelled as `Nat` zeros. -/
structure ImageContent where
  latex_path : Str
  storage_path : Str
  alt_text : Str
  caption : Option LumiSpan
  width : Nat
  height : Nat

/-- `FigureContent` of `shared/lumi_doc.py` (modelled from the spec data
model): a multi-image figure. -/
structure FigureContent where
  images : List ImageContent
  caption : Option LumiSpan

/-- `HtmlFigureContent` of `shared/lumi_doc.py` (modelled from the spec
data model): literal HTML plus optional caption. -/
structure HtmlFigureContent where
  html : Str
  caption : Option LumiSpan

/-- `LumiContent` of `shared/lumi_doc.py` (modelled from the spec data
model): a unique id plus exactly one populated variant (the Python
dataclass holds `None` in the others). -/
structure LumiContent where
  id : String
  text_content : Option TextContent
  image_content : Option ImageContent
  figure_content : Option FigureContent
  html_figure_content : Option HtmlFigureContent
  list_content : Option ListContent

/-- `Heading` of `shared/lumi_doc.py` (modelled from the spec data
model). -/
structure Heading where
  heading_level : Nat
  text : Str

/-- `LumiSection` of `shared/lumi_doc.py` (modelled from the spec data
model): heading, contents, nested subsections. -/
inductive LumiSection where
| mk (id : String) (heading : Heading) (contents : List LumiContent)
    (sub_sections : List LumiSection)

def LumiSection.idStr : LumiSection → String
| .mk i _ _ _ => i

def LumiSection.heading : LumiSection → Heading
| .mk _ h _ _ => h

def LumiSection.contents : LumiSection → List LumiContent
| .mk _ _ c _ => c

def LumiSection.sub_sections : LumiSection → List LumiSection
| .mk _ _ _ s => s

def LumiSection.headingLevel (s : LumiSection) : Nat :=
  s.heading.heading_level

/-- One visited node of the `soup.recursiveChildGenerator()` walk of
`convert_to_lumi_sections` that affects the section structure: a heading
tag `<hN>` (with `N = int(tag.name[1:])` and its directly contained text),
or a content tag from `TAGS_TO_PROCESS` together with the list of
`LumiContent` values it contributes (possibly empty; the BeautifulSoup
parsing, the visited-descendants bookkeeping, and the conversion of the
tag's body to contents are performed by the caller side of this model). -/
inductive HtmlBlock where
| heading (level : Nat) (text : Str)
| content (cs : List LumiContent)

/-- `parent_section.sub_sections.append(new_section)`. -/
def addSubSection : LumiSection → LumiSection → LumiSection
| .mk i h c subs, child => .mk i h c (subs ++ [child])

/-- `current_section.contents.extend(new_contents)` resp. `.append`. -/
def addContents : LumiSection → List LumiContent → LumiSection
| .mk i h c subs, cs => .mk i h (c ++ cs) subs

/-- The `while section_stack and section_stack[-1].heading.heading_level >=
heading_level: section_stack.pop()` loop of `convert_to_lumi_sections`
(import_pipeline.py lines 276-280), purified: the stack is kept with its
top at the head, and the Python-side mutation (a section is linked into its
parent's `sub_sections` / the root list at creation time and filled in
place) is modelled by attaching each frame to the frame below it — exactly
its creation-time parent — at the moment it is popped.  `top` is the
current stack top, `below` the rest of the stack. -/
def closeGo (roots : List LumiSection) (level : Nat) :
    LumiSection → List LumiSection → List LumiSection × List LumiSection
| top, [] =>
  if level ≤ top.headingLevel then (roots ++ [top], [])
  else (roots, [top])
| top, parent :: rest =>
  if level ≤ top.headingLevel then
    closeGo roots level (addSubSection parent top) rest
  else (roots, top :: parent :: rest)

/-- Pop all stack entries whose heading level is `≥ level`. -/
def closeSections (roots : List LumiSection) (stack : List LumiSection)
    (level : Nat) : List LumiSection × List LumiSection :=
  match stack with
  | [] => (roots, [])
  | top :: rest => closeGo roots level top rest

/-- One step of the `for tag in soup.recursiveChildGenerator()` loop of
`convert_to_lumi_sections` (import_pipeline.py lines 260-327) on the
machine state `(root_sections, section_stack)`: a heading closes all
sections of level `≥` its own and pushes a new empty section; a content
block first synthesizes a level-0 default section if the stack is empty,
then extends the contents of the stack top. -/
def sectionsStep (st : List LumiSection × List LumiSection) (b : HtmlBlock) :
    List LumiSection × List LumiSection :=
  match b with
  | .heading level text =>
    match closeSections st.1 st.2 level with
    | (roots2, stack2) =>
      (roots2, LumiSection.mk get_unique_id ⟨level, text⟩ [] [] :: stack2)
  | .content cs =>
    match st.2 with
    | [] => (st.1, [LumiSection.mk get_unique_id ⟨0, []⟩ cs []])
    | top :: rest => (st.1, addContents top cs :: rest)

/-- `convert_to_lumi_sections` (import_pipeline.py lines 229-329) on the
abstracted block walk: fold the step over the blocks, then flush the
remaining stack (every heading level is `≥ 0`, so closing with level 0
links every frame into its parent and the bottom frame into the roots,
which is what the Python mutation already did incrementally). -/
def convert_to_lumi_sections (blocks : List HtmlBlock) : List LumiSection :=
  match blocks.foldl sectionsStep ([], []) with
  | (roots, stack) => (closeSections roots stack 0).1

/-- The section-forest invariant of the data model: every section in
`sub_sections` has a heading level strictly greater than its parent's,
recursively. -/
def levelsOk : LumiSection → Bool
| .mk _ h _ subs =>
  subs.attach.all
    (fun c => decide (h.heading_level < c.1.headingLevel) && levelsOk c.1)
decreasing_by
  have := List.sizeOf_lt_of_mem c.2
  simp only [LumiSection.mk.sizeOf_spec]
  omega

theorem addSubSection_heading (p c : LumiSection) :
    (addSubSection p c).heading = p.heading := by
  cases p; rfl

theorem addSubSection_headingLevel (p c : LumiSection) :
    (addSubSection p c).headingLevel = p.headingLevel := by
  cases p; rfl

theorem addSubSection_contents (p c : LumiSection) :
    (addSubSection p c).contents = p.contents := by
  cases p; rfl

theorem addSubSection_sub_sections (p c : LumiSection) :
    (addSubSection p c).sub_sections = p.sub_sections ++ [c] := by
  cases p; rfl

theorem addContents_heading (p : LumiSection) (cs : List LumiContent) :
    (addContents p cs).heading = p.heading := by
  cases p; rfl

theorem addContents_headingLevel (p : LumiSection) (cs : List LumiContent) :
    (addContents p cs).headingLevel = p.headingLevel := by
  cases p; rfl

theorem addContents_contents (p : LumiSection) (cs : List LumiContent) :
    (addContents p cs).contents = p.contents ++ cs := by
  cases p; rfl

theorem addContents_sub_sections (p : LumiSection) (cs : List LumiContent) :
    (addContents p cs).sub_sections = p.sub_sections := by
  cases p; rfl

theorem levelsOk_iff (i : String) (h : Heading) (cs : List LumiContent)
    (subs : List LumiSection) :
    levelsOk (.mk i h cs subs) = true ↔
      ∀ s ∈ subs, h.heading_level < s.headingLevel ∧ levelsOk s = true := by
  rw [levelsOk]
  rw [List.all_eq_true]
  constructor
  · intro hall s hs
    have := hall ⟨s, hs⟩ (List.mem_attach _ _)
    rw [Bool.and_eq_true, decide_eq_true_iff] at this
    exact this
  · intro hall x _
    obtain ⟨s, hs⟩ := x
    rw [Bool.and_eq_true, decide_eq_true_iff]
    exact hall s hs

/-- `levelsOk` restated through the projections. -/
theorem levelsOk_iff' (s : LumiSection) :
    levelsOk s = true ↔
      ∀ c ∈ s.sub_sections, s.headingLevel < c.headingLevel ∧
        levelsOk c = true := by
  cases s with
  | mk i h cs subs => exact levelsOk_iff i h cs subs

theorem levelsOk_addContents (p : LumiSection) (cs : List LumiContent) :
    levelsOk (addContents p cs) = levelsOk p := by
  apply Bool.coe_iff_coe.mp
  show levelsOk (addContents p cs) = true ↔ levelsOk p = true
  rw [levelsOk_iff', levelsOk_iff', addContents_sub_sections]
  constructor
  · intro H c hc
    have := H c hc
    rw [addContents_headingLevel] at this
    exact this
  · intro H c hc
    rw [addContents_headingLevel]
    exact H c hc

theorem levelsOk_addSubSection {p c : LumiSection}
    (hp : levelsOk p = true) (hc : levelsOk c = true)
    (hlt : p.headingLevel < c.headingLevel) :
    levelsOk (addSubSection p c) = true := by
  rw [levelsOk_iff', addSubSection_sub_sections]
  intro x hx
  rw [addSubSection_headingLevel]
  rcases List.mem_append.mp hx with hx | hx
  · exact ((levelsOk_iff' p).mp hp) x hx
  · rcases List.mem_singleton.mp hx with rfl
    exact ⟨hlt, hc⟩

theorem closeGo_stop {roots : List LumiSection} {level : Nat}
    {top : LumiSection} {below : List LumiSection}
    (h : ¬ level ≤ top.headingLevel) :
    closeGo roots level top below = (roots, top :: below) := by
  cases below with
  | nil => rw [closeGo, if_neg h]
  | cons parent rest => rw [closeGo, if_neg h]

theorem closeGo_root {roots : List LumiSection} {level : Nat}
    {top : LumiSection} (h : level ≤ top.headingLevel) :
    closeGo roots level top [] = (roots ++ [top], []) := by
  rw [closeGo, if_pos h]

theorem closeGo_merge {roots : List LumiSection} {level : Nat}
    {top parent : LumiSection} {rest : List LumiSection}
    (h : level ≤ top.headingLevel) :
    closeGo roots level top (parent :: rest) =
      closeGo roots level (addSubSection parent top) rest := by
  rw [closeGo, if_pos h]

/-- Replacing the head of a level-decreasing stack by a frame with the same
heading level preserves the chain. -/
theorem stackChain_congr_head {a b : LumiSection} {l : List LumiSection}
    (hab : a.headingLevel = b.headingLevel)
    (h : List.Chain' (fun x y => y.headingLevel < x.headingLevel) (a :: l)) :
    List.Chain' (fun x y => y.headingLevel < x.headingLevel) (b :: l) := by
  cases l with
  | nil => exact List.chain'_singleton b
  | cons c cs =>
    rw [List.chain'_cons] at h ⊢
    exact ⟨hab ▸ h.1, h.2⟩

theorem getLast?_map_merge {α : Type} (f : LumiSection → α)
    {parent top : LumiSection}
    (hf : f (addSubSection parent top) = f parent)
    (rest : List LumiSection) :
    ((addSubSection parent top :: rest).getLast?).map f =
      ((top :: parent :: rest).getLast?).map f := by
  cases rest with
  | nil => simp [hf]
  | cons r rs => simp

/-- Closing preserves the section-forest invariant: all roots and all
remaining stack frames keep `levelsOk`, and the remaining stack keeps
strictly decreasing levels from top to bottom. -/
theorem closeGo_ok :
    ∀ (below : List LumiSection) (top : LumiSection)
      (roots : List LumiSection) (level : Nat),
      (∀ s ∈ roots, levelsOk s = true) →
      levelsOk top = true →
      (∀ s ∈ below, levelsOk s = true) →
      List.Chain' (fun x y => y.headingLevel < x.headingLevel)
        (top :: below) →
      (∀ s ∈ (closeGo roots level top below).1, levelsOk s = true) ∧
      (∀ s ∈ (closeGo roots level top below).2, levelsOk s = true) ∧
      List.Chain' (fun x y => y.headingLevel < x.headingLevel)
        (closeGo roots level top below).2 := by
  intro below
  induction below with
  | nil =>
    intro top roots level hroots htop hbelow hchain
    by_cases hL : level ≤ top.headingLevel
    · rw [closeGo_root hL]
      refine ⟨?_, by simp, by simp⟩
      intro s hs
      rcases List.mem_append.mp hs with hs | hs
      · exact hroots s hs
      · rcases List.mem_singleton.mp hs with rfl
        exact htop
    · rw [closeGo_stop hL]
      refine ⟨hroots, ?_, hchain⟩
      intro s hs
      rcases List.mem_singleton.mp hs with rfl
      exact htop
  | cons parent rest ih =>
    intro top roots level hroots htop hbelow hchain
    by_cases hL : level ≤ top.headingLevel
    · rw [closeGo_merge hL]
      have hpl : parent.headingLevel < top.headingLevel :=
        (List.chain'_cons.mp hchain).1
      have hpok : levelsOk parent = true :=
        hbelow parent (List.mem_cons_self _ _)
      apply ih (addSubSection parent top) roots level hroots
        (levelsOk_addSubSection hpok htop hpl)
        (fun s hs => hbelow s (List.mem_cons_of_mem _ hs))
      exact stackChain_congr_head
        (addSubSection_headingLevel parent top).symm
        (List.chain'_cons.mp hchain).2
    · rw [closeGo_stop hL]
      refine ⟨hroots, ?_, hchain⟩
      intro s hs
      rcases List.mem_cons.mp hs with rfl | hs
      · exact htop
      · exact hbelow s hs

/-- Shape of a closing run: either it stops early — roots unchanged, the
remaining stack's reversed heading sequence is a prefix of the input
stack's, the bottom frame's heading and contents are preserved, and the new
top's level is strictly below the closing level — or it closes the whole
stack and appends to the roots exactly one tree whose heading and contents
are those of the input bottom frame. -/
theorem closeGo_shape :
    ∀ (below : List LumiSection) (top : LumiSection)
      (roots : List LumiSection) (level : Nat),
      (∃ top2 rest2,
        closeGo roots level top below = (roots, top2 :: rest2) ∧
        top2.headingLevel < level ∧
        (top2 :: rest2).reverse.map LumiSection.heading =
          (((top :: below).reverse.map LumiSection.heading).take
            (rest2.length + 1)) ∧
        ((top2 :: rest2).getLast?).map LumiSection.heading =
          ((top :: below).getLast?).map LumiSection.heading ∧
        ((top2 :: rest2).getLast?).map LumiSection.contents =
          ((top :: below).getLast?).map LumiSection.contents) ∨
      (∃ t,
        closeGo roots level top below = (roots ++ [t], []) ∧
        some t.heading = ((top :: below).getLast?).map LumiSection.heading ∧
        some t.contents =
          ((top :: below).getLast?).map LumiSection.contents) := by
  intro below
  induction below with
  | nil =>
    intro top roots level
    by_cases hL : level ≤ top.headingLevel
    · right
      exact ⟨top, closeGo_root hL, by simp, by simp⟩
    · left
      refine ⟨top, [], closeGo_stop hL, by omega, by simp, rfl, rfl⟩
  | cons parent rest ih =>
    intro top roots level
    by_cases hL : level ≤ top.headingLevel
    · rw [closeGo_merge hL]
      rcases ih (addSubSection parent top) roots level with
        ⟨top2, rest2, heq, hlv, htake, hlh, hlc⟩ | ⟨t, heq, hlh, hlc⟩
      · left
        refine ⟨top2, rest2, heq, hlv, ?_, ?_, ?_⟩
        · rw [htake]
          have hlen : rest2.length + 1
              ≤ ((addSubSection parent top :: rest).reverse.map
                  LumiSection.heading).length := by
            have hlt := congrArg List.length htake
            simp only [List.length_take, List.length_map,
              List.length_reverse, List.length_cons] at hlt
            simp only [List.length_map, List.length_reverse,
              List.length_cons]
            omega
          have hsplit :
              (top :: parent :: rest).reverse.map LumiSection.heading =
                (addSubSection parent top :: rest).reverse.map
                  LumiSection.heading ++ [top.heading] := by
            simp [addSubSection_heading]
          rw [hsplit, List.take_append_of_le_length hlen]
        · rw [hlh]
          exact getLast?_map_merge LumiSection.heading
            (addSubSection_heading parent top) rest
        · rw [hlc]
          exact getLast?_map_merge LumiSection.contents
            (addSubSection_contents parent top) rest
      · right
        refine ⟨t, heq, ?_, ?_⟩
        · rw [hlh]
          exact getLast?_map_merge LumiSection.heading
            (addSubSection_heading parent top) rest
        · rw [hlc]
          exact getLast?_map_merge LumiSection.contents
            (addSubSection_contents parent top) rest
    · left
      refine ⟨top, parent :: rest, closeGo_stop hL, by omega, ?_, rfl, rfl⟩
      rw [List.take_of_length_le (by simp)]

theorem closeSections_nil (roots : List LumiSection) (level : Nat) :
    closeSections roots [] level = (roots, []) := rfl

theorem closeSections_cons (roots : List LumiSection) (top : LumiSection)
    (rest : List LumiSection) (level : Nat) :
    closeSections roots (top :: rest) level = closeGo roots level top rest :=
  rfl

theorem sectionsStep_heading (roots stack : List LumiSection) (level : Nat)
    (text : Str) :
    sectionsStep (roots, stack) (.heading level text) =
      ((closeSections roots stack level).1,
        LumiSection.mk get_unique_id ⟨level, text⟩ [] []
          :: (closeSections roots stack level).2) := rfl

theorem sectionsStep_content_nil (roots : List LumiSection)
    (cs : List LumiContent) :
    sectionsStep (roots, []) (.content cs) =
      (roots, [LumiSection.mk get_unique_id ⟨0, []⟩ cs []]) := rfl

theorem sectionsStep_content_cons (roots : List LumiSection)
    (top : LumiSection) (rest : List LumiSection) (cs : List LumiContent) :
    sectionsStep (roots, top :: rest) (.content cs) =
      (roots, addContents top cs :: rest) := rfl

/-- A freshly created section (empty `sub_sections`) satisfies the
forest invariant. -/
theorem levelsOk_fresh (i : String) (h : Heading) (cs : List LumiContent) :
    levelsOk (.mk i h cs []) = true := by
  rw [levelsOk_iff]
  intro s hs
  cases hs

/-- Machine invariant of the block structure builder: every completed root
and every open stack frame satisfies the forest invariant, and the stack's
heading levels strictly decrease from top to bottom. -/
def MInv (st : List LumiSection × List LumiSection) : Prop :=
  (∀ s ∈ st.1, levelsOk s = true) ∧ (∀ s ∈ st.2, levelsOk s = true) ∧
  List.Chain' (fun x y => y.headingLevel < x.headingLevel) st.2

theorem sectionsStep_inv (st : List LumiSection × List LumiSection)
    (b : HtmlBlock) (h : MInv st) : MInv (sectionsStep st b) := by
  obtain ⟨hroots, hstack, hchain⟩ := h
  obtain ⟨roots, stack⟩ := st
  cases b with
  | heading level text =>
    rw [sectionsStep_heading]
    cases stack with
    | nil =>
      rw [closeSections_nil]
      refine ⟨hroots, ?_, List.chain'_singleton _⟩
      intro s hs
      rcases List.mem_singleton.mp hs with rfl
      exact levelsOk_fresh _ _ _
    | cons top below =>
      rw [closeSections_cons]
      have hok := closeGo_ok below top roots level hroots
        (hstack top (List.mem_cons_self _ _))
        (fun s hs => hstack s (List.mem_cons_of_mem _ hs)) hchain
      rcases closeGo_shape below top roots level with
        ⟨top2, rest2, heq, hlv, _, _, _⟩ | ⟨t, heq, _, _⟩
      · rw [heq] at hok ⊢
        refine ⟨hok.1, ?_, ?_⟩
        · intro s hs
          rcases List.mem_cons.mp hs with rfl | hs
          · exact levelsOk_fresh _ _ _
          · exact hok.2.1 s hs
        · rw [List.chain'_cons]
          exact ⟨hlv, hok.2.2⟩
      · rw [heq] at hok ⊢
        refine ⟨hok.1, ?_, List.chain'_singleton _⟩
        intro s hs
        rcases List.mem_singleton.mp hs with rfl
        exact levelsOk_fresh _ _ _
  | content cs =>
    cases stack with
    | nil =>
      rw [sectionsStep_content_nil]
      refine ⟨hroots, ?_, List.chain'_singleton _⟩
      intro s hs
      rcases List.mem_singleton.mp hs with rfl
      exact levelsOk_fresh _ _ _
    | cons top below =>
      rw [sectionsStep_content_cons]
      refine ⟨hroots, ?_, ?_⟩
      · intro s hs
        rcases List.mem_cons.mp hs with rfl | hs
        · rw [levelsOk_addContents]
          exact hstack top (List.mem_cons_self _ _)
        · exact hstack s (List.mem_cons_of_mem _ hs)
      · exact stackChain_congr_head
          (addContents_headingLevel top cs).symm hchain

theorem foldl_sectionsStep_inv :
    ∀ (blocks : List HtmlBlock) (st : List LumiSection × List LumiSection),
      MInv st → MInv (blocks.foldl sectionsStep st) := by
  intro blocks
  induction blocks with
  | nil => intro st h; exact h
  | cons b rest ih =>
    intro st h
    rw [List.foldl_cons]
    exact ih _ (sectionsStep_inv st b h)

/-- The headings of a list of sections, in order. -/
def headsOf (l : List LumiSection) : List Heading :=
  l.map LumiSection.heading

/-- The headings of the heading blocks of a walk, in source order. -/
def headsOfBlocks (blocks : List HtmlBlock) : List Heading :=
  blocks.filterMap
    (fun b =>
      match b with
      | .heading level text => some ⟨level, text⟩
      | .content _ => none)

theorem headsOfBlocks_heading (level : Nat) (text : Str)
    (rest : List HtmlBlock) :
    headsOfBlocks (.heading level text :: rest) =
      Heading.mk level text :: headsOfBlocks rest := rfl

theorem headsOfBlocks_content (cs : List LumiContent)
    (rest : List HtmlBlock) :
    headsOfBlocks (.content cs :: rest) = headsOfBlocks rest := rfl

/-- Processing from an arbitrary machine state and flushing the stack. -/
def processClose (roots stack : List LumiSection)
    (blocks : List HtmlBlock) : List LumiSection :=
  match blocks.foldl sectionsStep (roots, stack) with
  | (r, s) => (closeSections r s 0).1

theorem convert_eq_processClose (blocks : List HtmlBlock) :
    convert_to_lumi_sections blocks = processClose [] [] blocks := rfl

theorem processClose_nil (roots stack : List LumiSection) :
    processClose roots stack [] = (closeSections roots stack 0).1 := rfl

theorem processClose_cons (roots stack : List LumiSection) (b : HtmlBlock)
    (blocks : List HtmlBlock) :
    processClose roots stack (b :: blocks) =
      processClose (sectionsStep (roots, stack) b).1
        (sectionsStep (roots, stack) b).2 blocks := rfl

theorem processClose_ok (blocks : List HtmlBlock)
    (roots stack : List LumiSection) (h : MInv (roots, stack)) :
    ∀ s ∈ processClose roots stack blocks, levelsOk s = true := by
  have h2 := foldl_sectionsStep_inv blocks (roots, stack) h
  have hdef : processClose roots stack blocks =
      (closeSections (blocks.foldl sectionsStep (roots, stack)).1
        (blocks.foldl sectionsStep (roots, stack)).2 0).1 := rfl
  rw [hdef]
  obtain ⟨hr, hs, hc⟩ := h2
  cases hst : (blocks.foldl sectionsStep (roots, stack)).2 with
  | nil => rw [closeSections_nil]; exact hr
  | cons top below =>
    rw [closeSections_cons]
    rw [hst] at hs hc
    exact (closeGo_ok below top _ 0 hr
      (hs top (List.mem_cons_self _ _))
      (fun s hsm => hs s (List.mem_cons_of_mem _ hsm)) hc).1

/-- The supersequence against which the produced top-level headings are
compared: the current stack's headings bottom-to-top (only the bottom can
still become a root), then — when the stack is empty — the heading of a
possibly synthesized level-0 default section, then the headings of the
remaining heading blocks in source order. -/
def orderTarget (stack : List LumiSection) (blocks : List HtmlBlock) :
    List Heading :=
  match stack with
  | [] => Heading.mk 0 [] :: headsOfBlocks blocks
  | _ :: _ => headsOf stack.reverse ++ headsOfBlocks blocks

theorem orderTarget_nil (blocks : List HtmlBlock) :
    orderTarget [] blocks = Heading.mk 0 [] :: headsOfBlocks blocks := rfl

theorem orderTarget_cons (top : LumiSection) (below : List LumiSection)
    (blocks : List HtmlBlock) :
    orderTarget (top :: below) blocks =
      headsOf (top :: below).reverse ++ headsOfBlocks blocks := rfl

/-- Top-level document order: from any machine state, the headings of the
final root list extend the current roots' headings by a subsequence of the
order target. -/
theorem processClose_order :
    ∀ (blocks : List HtmlBlock) (roots stack : List LumiSection),
      ∃ X, headsOf (processClose roots stack blocks) = headsOf roots ++ X ∧
        List.Sublist X (orderTarget stack blocks) := by
  intro blocks
  induction blocks with
  | nil =>
    intro roots stack
    cases stack with
    | nil =>
      refine ⟨[], by simp [processClose_nil, closeSections_nil], ?_⟩
      exact List.nil_sublist _
    | cons top below =>
      rw [processClose_nil, closeSections_cons]
      rcases closeGo_shape below top roots 0 with
        ⟨top2, rest2, heq, hlv, _, _, _⟩ | ⟨t, heq, hlh, _⟩
      · omega
      · rw [heq]
        refine ⟨[t.heading], by simp [headsOf], ?_⟩
        rw [orderTarget_cons]
        cases hrev : (top :: below).reverse with
        | nil => simp at hrev
        | cons z zs =>
          have hz : (top :: below).getLast? = some z := by
            rw [← List.head?_reverse, hrev]
            rfl
          rw [hz] at hlh
          rw [Option.map_some'] at hlh
          have hzh : t.heading = z.heading := Option.some.inj hlh
          rw [hzh]
          show List.Sublist [z.heading]
            ((z.heading :: headsOf zs) ++ headsOfBlocks [])
          rw [List.cons_append]
          exact List.Sublist.cons₂ _ (List.nil_sublist _)
  | cons b rest ih =>
    intro roots stack
    rw [processClose_cons]
    cases b with
    | content cs =>
      cases stack with
      | nil =>
        rw [sectionsStep_content_nil]
        obtain ⟨X, hX, hsub⟩ :=
          ih roots [LumiSection.mk get_unique_id ⟨0, []⟩ cs []]
        refine ⟨X, hX, ?_⟩
        rw [orderTarget_nil, headsOfBlocks_content]
        rw [orderTarget_cons] at hsub
        have hr1 : headsOf
            ([LumiSection.mk get_unique_id ⟨0, []⟩ cs []].reverse) =
            [Heading.mk 0 []] := rfl
        rw [hr1, List.singleton_append] at hsub
        exact hsub
      | cons top below =>
        rw [sectionsStep_content_cons]
        obtain ⟨X, hX, hsub⟩ := ih roots (addContents top cs :: below)
        refine ⟨X, hX, ?_⟩
        rw [orderTarget_cons, headsOfBlocks_content]
        rw [orderTarget_cons] at hsub
        have hrev : headsOf (addContents top cs :: below).reverse =
            headsOf (top :: below).reverse := by
          simp [headsOf, addContents_heading]
        rw [hrev] at hsub
        exact hsub
    | heading level text =>
      rw [sectionsStep_heading]
      cases stack with
      | nil =>
        rw [closeSections_nil]
        obtain ⟨X, hX, hsub⟩ :=
          ih roots [LumiSection.mk get_unique_id ⟨level, text⟩ [] []]
        refine ⟨X, hX, ?_⟩
        rw [orderTarget_nil, headsOfBlocks_heading]
        rw [orderTarget_cons] at hsub
        have hr1 : headsOf
            ([LumiSection.mk get_unique_id ⟨level, text⟩ [] []].reverse) =
            [Heading.mk level text] := rfl
        rw [hr1, List.singleton_append] at hsub
        exact hsub.cons _
      | cons top below =>
        rw [closeSections_cons, orderTarget_cons, headsOfBlocks_heading]
        rcases closeGo_shape below top roots level with
          ⟨top2, rest2, heq, hlv, htake, _, _⟩ | ⟨t, heq, hlh, _⟩
        · rw [heq]
          obtain ⟨X, hX, hsub⟩ := ih roots
            (LumiSection.mk get_unique_id ⟨level, text⟩ [] []
              :: top2 :: rest2)
          refine ⟨X, hX, ?_⟩
          rw [orderTarget_cons] at hsub
          have hrw : headsOf (LumiSection.mk get_unique_id ⟨level, text⟩ [] []
              :: top2 :: rest2).reverse =
              headsOf (top2 :: rest2).reverse ++ [Heading.mk level text] := by
            simp [headsOf, LumiSection.heading]
          rw [hrw] at hsub
          have htake2 : headsOf (top2 :: rest2).reverse =
              (headsOf (top :: below).reverse).take (rest2.length + 1) :=
            htake
          rw [htake2] at hsub
          refine hsub.trans ?_
          rw [List.append_assoc]
          have hcons : (headsOfBlocks rest).cons (Heading.mk level text) =
              [Heading.mk level text] ++ headsOfBlocks rest := rfl
          rw [← hcons]
          exact List.Sublist.append (List.take_sublist _ _)
            (List.Sublist.refl _)
        · rw [heq]
          obtain ⟨X, hX, hsub⟩ := ih (roots ++ [t])
            [LumiSection.mk get_unique_id ⟨level, text⟩ [] []]
          refine ⟨t.heading :: X, ?_, ?_⟩
          · rw [hX]
            simp [headsOf]
          · rw [orderTarget_cons] at hsub
            have hr1 : headsOf
                ([LumiSection.mk get_unique_id ⟨level, text⟩ [] []].reverse) =
                [Heading.mk level text] := rfl
            rw [hr1, List.singleton_append] at hsub
            have hsub2 : List.Sublist X
                (Heading.mk level text :: headsOfBlocks rest) := hsub
            cases hrev : (top :: below).reverse with
            | nil => simp at hrev
            | cons z zs =>
              have hz : (top :: below).getLast? = some z := by
                rw [← List.head?_reverse, hrev]
                rfl
              rw [hz] at hlh
              rw [Option.map_some'] at hlh
              have hzh : t.heading = z.heading := Option.some.inj hlh
              rw [hzh]
              show List.Sublist (z.heading :: X)
                ((z.heading :: headsOf zs) ++
                  (Heading.mk level text :: headsOfBlocks rest))
              rw [List.cons_append]
              refine List.Sublist.cons₂ _ ?_
              exact hsub2.trans (List.sublist_append_right _ _)

/-- Bottom-frame / first-root invariant used for the synthesized-section
clause of C3: either no root exists yet and the stack bottom is a level-0
default section containing `cs` as a contents prefix, or the first root is
such a section. -/
def FirstInv (cs : List LumiContent)
    (st : List LumiSection × List LumiSection) : Prop :=
  (st.1 = [] ∧ ∃ bot, st.2.getLast? = some bot ∧ bot.heading = ⟨0, []⟩ ∧
    ∃ m, bot.contents = cs ++ m) ∨
  (∃ s tl, st.1 = s :: tl ∧ s.heading = ⟨0, []⟩ ∧
    ∃ m, s.contents = cs ++ m)

theorem processClose_firstContent :
    ∀ (blocks : List HtmlBlock) (roots stack : List LumiSection)
      (cs : List LumiContent), FirstInv cs (roots, stack) →
      ∃ s tl, processClose roots stack blocks = s :: tl ∧
        s.heading = ⟨0, []⟩ ∧ ∃ m, s.contents = cs ++ m := by
  intro blocks
  induction blocks with
  | nil =>
    intro roots stack cs hinv
    have hinv2 : (roots = [] ∧ ∃ bot, stack.getLast? = some bot ∧
        bot.heading = ⟨0, []⟩ ∧ ∃ m, bot.contents = cs ++ m) ∨
        (∃ s tl, roots = s :: tl ∧ s.heading = ⟨0, []⟩ ∧
          ∃ m, s.contents = cs ++ m) := hinv
    rw [processClose_nil]
    rcases hinv2 with ⟨hr, bot, hbot, hh, m, hc⟩ | ⟨s, tl, hr, hh, m, hc⟩
    · subst hr
      cases stack with
      | nil => simp at hbot
      | cons top below =>
        rw [closeSections_cons]
        rcases closeGo_shape below top [] 0 with
          ⟨top2, rest2, heq, hlv, _, _, _⟩ | ⟨t, heq, hlh, hlc⟩
        · omega
        · rw [heq]
          rw [hbot, Option.map_some'] at hlh hlc
          refine ⟨t, [], by simp, ?_, m, ?_⟩
          · rw [Option.some.inj hlh, hh]
          · rw [Option.some.inj hlc, hc]
    · subst hr
      cases stack with
      | nil =>
        rw [closeSections_nil]
        exact ⟨s, tl, rfl, hh, m, hc⟩
      | cons top below =>
        rw [closeSections_cons]
        rcases closeGo_shape below top (s :: tl) 0 with
          ⟨top2, rest2, heq, hlv, _, _, _⟩ | ⟨t, heq, _, _⟩
        · omega
        · rw [heq]
          exact ⟨s, tl ++ [t], rfl, hh, m, hc⟩
  | cons b rest ih =>
    intro roots stack cs hinv
    have hinv2 : (roots = [] ∧ ∃ bot, stack.getLast? = some bot ∧
        bot.heading = ⟨0, []⟩ ∧ ∃ m, bot.contents = cs ++ m) ∨
        (∃ s tl, roots = s :: tl ∧ s.heading = ⟨0, []⟩ ∧
          ∃ m, s.contents = cs ++ m) := hinv
    rw [processClose_cons]
    apply ih
    rcases hinv2 with ⟨hr, bot, hbot, hh, m, hc⟩ | ⟨s, tl, hr, hh, m, hc⟩
    · subst hr
      cases stack with
      | nil => simp at hbot
      | cons top below =>
        cases b with
        | heading level text =>
          rw [sectionsStep_heading, closeSections_cons]
          rcases closeGo_shape below top [] level with
            ⟨top2, rest2, heq, hlv, _, hlh, hlc⟩ | ⟨t, heq, hlh, hlc⟩
          · rw [heq]
            left
            refine ⟨rfl, ?_⟩
            have hne2 : (top2 :: rest2) ≠ [] := by simp
            obtain ⟨bot2, hbot2⟩ := Option.isSome_iff_exists.mp
              (List.getLast?_isSome.mpr hne2)
            rw [hbot2, hbot, Option.map_some', Option.map_some'] at hlh hlc
            refine ⟨bot2, ?_, ?_, m, ?_⟩
            · show (LumiSection.mk get_unique_id ⟨level, text⟩ [] []
                :: top2 :: rest2).getLast? = some bot2
              rw [List.getLast?_cons_cons]
              exact hbot2
            · rw [Option.some.inj hlh, hh]
            · rw [Option.some.inj hlc, hc]
          · rw [heq]
            right
            rw [hbot, Option.map_some'] at hlh hlc
            exact ⟨t, [], rfl, by rw [Option.some.inj hlh, hh],
              m, by rw [Option.some.inj hlc, hc]⟩
        | content cs2 =>
          rw [sectionsStep_content_cons]
          left
          refine ⟨rfl, ?_⟩
          cases below with
          | nil =>
            have hbt : top = bot := by
              have hone : (([top] : List LumiSection)).getLast? = some top :=
                rfl
              rw [hone] at hbot
              exact Option.some.inj hbot
            subst hbt
            refine ⟨addContents top cs2, rfl, ?_, m ++ cs2, ?_⟩
            · rw [addContents_heading, hh]
            · rw [addContents_contents, hc, List.append_assoc]
          | cons r rs =>
            refine ⟨bot, ?_, hh, m, hc⟩
            show (addContents top cs2 :: r :: rs).getLast? = some bot
            rw [List.getLast?_cons_cons]
            rw [List.getLast?_cons_cons] at hbot
            exact hbot
    · subst hr
      cases b with
      | heading level text =>
        rw [sectionsStep_heading]
        right
        cases stack with
        | nil =>
          rw [closeSections_nil]
          exact ⟨s, tl, rfl, hh, m, hc⟩
        | cons top below =>
          rw [closeSections_cons]
          rcases closeGo_shape below top (s :: tl) level with
            ⟨top2, rest2, heq, _, _, _, _⟩ | ⟨t, heq, _, _⟩
          · rw [heq]
            exact ⟨s, tl, rfl, hh, m, hc⟩
          · rw [heq]
            exact ⟨s, tl ++ [t], rfl, hh, m, hc⟩
      | content cs2 =>
        cases stack with
        | nil =>
          rw [sectionsStep_content_nil]
          right
          exact ⟨s, tl, rfl, hh, m, hc⟩
        | cons top below =>
          rw [sectionsStep_content_cons]
          right
          exact ⟨s, tl, rfl, hh, m, hc⟩

/-- Claim C3: for every input block sequence, the Section forest returned
by `convert_to_lumi_sections` satisfies: (1) every section in another
section's `sub_sections` has a strictly greater heading level than its
parent, recursively (`levelsOk`); (2) the top-level sections appear in
document order — their headings form a subsequence of (the possibly
synthesized level-0 default heading followed by) the heading blocks in
source order; (3) content encountered while the section stack is empty
(i.e. before any heading) is placed in a synthesized level-0 section with
empty heading text that becomes the first top-level entry. -/
theorem c3_section_forest (blocks : List HtmlBlock) :
    (∀ s ∈ convert_to_lumi_sections blocks, levelsOk s = true) ∧
    List.Sublist (headsOf (convert_to_lumi_sections blocks))
      (Heading.mk 0 [] :: headsOfBlocks blocks) ∧
    (∀ (cs : List LumiContent) (rest : List HtmlBlock),
      blocks = HtmlBlock.content cs :: rest →
      ∃ s tl, convert_to_lumi_sections blocks = s :: tl ∧
        s.heading = ⟨0, []⟩ ∧ ∃ m, s.contents = cs ++ m) := by
  refine ⟨?_, ?_, ?_⟩
  · rw [convert_eq_processClose]
    apply processClose_ok
    refine ⟨?_, ?_, ?_⟩
    · intro s hs; cases hs
    · intro s hs; cases hs
    · exact List.chain'_nil
  · rw [convert_eq_processClose]
    obtain ⟨X, hX, hsub⟩ := processClose_order blocks [] []
    rw [orderTarget_nil] at hsub
    have hX2 : headsOf (processClose [] [] blocks) = X := by
      rw [hX]; rfl
    rw [hX2]
    exact hsub
  · intro cs rest hbl
    subst hbl
    rw [convert_eq_processClose, processClose_cons]
    have hstep : sectionsStep ([], []) (.content cs) =
        ([], [LumiSection.mk get_unique_id ⟨0, []⟩ cs []]) :=
      sectionsStep_content_nil [] cs
    rw [hstep]
    apply processClose_firstContent
    left
    refine ⟨rfl, LumiSection.mk get_unique_id ⟨0, []⟩ cs [], rfl, rfl,
      [], ?_⟩
    show cs = cs ++ []
    simp

/-- Opaque content payload used in the C3 witness. -/
def demoContent : LumiContent := ⟨"cid", none, none, none, none, none⟩

/-- Concrete block walk for the C3 witness: leading content (no heading
yet), then an h1 and an h2. -/
def c3blocksDemo : List HtmlBlock :=
  [HtmlBlock.content [demoContent], HtmlBlock.heading 1 ['A'],
    HtmlBlock.heading 2 ['B']]

/-- Witness for C3 at a concrete block walk, with the synthesized-section
clause discharged at its concrete leading content block. -/
theorem c3_witness :
    (∀ s ∈ convert_to_lumi_sections c3blocksDemo, levelsOk s = true) ∧
    List.Sublist (headsOf (convert_to_lumi_sections c3blocksDemo))
      (Heading.mk 0 [] :: headsOfBlocks c3blocksDemo) ∧
    (∃ s tl, convert_to_lumi_sections c3blocksDemo = s :: tl ∧
      s.heading = ⟨0, []⟩ ∧ ∃ m, s.contents = [demoContent] ++ m) := by
  obtain ⟨h1, h2, h3⟩ := c3_section_forest c3blocksDemo
  exact ⟨h1, h2, h3 [demoContent]
    [HtmlBlock.heading 1 ['A'], HtmlBlock.heading 2 ['B']] rfl⟩

mutual

/-- A direct child node of an `<li>` element, as seen by the
`for child_node in li_tag.contents` loop of `_get_list_content_from_tag`
(import_pipeline.py lines 494-541): either a non-list node contributing its
`get_text()` (modelled as the text itself), or a nested `<ul>`/`<ol>`. -/
inductive LiNode where
| other (txt : Str)
| list (tree : ListTag)

/-- A `<ul>`/`<ol>` tag: orderedness plus its direct `<li>` children. -/
inductive ListTag where
| mk (ordered : Bool) (items : List LiChildren)

/-- The child-node list of one `<li>` element. -/
inductive LiChildren where
| mk (nodes : List LiNode)

end

mutual

/-- `child_node.get_text()` for a nested list child: the concatenated
visible text of the whole subtree. -/
def listTagText : ListTag → Str
| .mk _ items => itemsText items

def itemsText : List LiChildren → Str
| [] => []
| item :: rest => liChildrenText item ++ itemsText rest

def liChildrenText : LiChildren → Str
| .mk nodes => nodesText nodes

def nodesText : List LiNode → Str
| [] => []
| .other t :: rest => t ++ nodesText rest
| .list tr :: rest => listTagText tr ++ nodesText rest

end

/-- The `if cleaned_li_text.strip() or li_inner_tags` guard plus
`create_lumi_spans` call producing an item's spans from its raw text. -/
def itemSpans (defs : List TagDef) (seg : Str → List Str) (raw : Str) :
    List LumiSpan :=
  if !pyStripEmpty (parse_text_and_extract_inner_tags defs raw).1
      || !(parse_text_and_extract_inner_tags defs raw).2.isEmpty then
    create_lumi_spans seg (parse_text_and_extract_inner_tags defs raw).1
      (parse_text_and_extract_inner_tags defs raw).2 false
  else []

mutual

/-- The `for child_node in li_tag.contents` loop of
`_get_list_content_from_tag`: accumulate raw text and capture the first
nested list.  A nested list child is recursed into only when no sublist has
been captured yet (`subListContent is None`); afterwards a nested list goes
through the `else` branch and contributes its `get_text()` to the raw text.
(The Python guard `if nested_obj and nested_obj.list_content` is always
true for a list child, so the capture is modelled directly.) -/
def childFold (defs : List TagDef) (seg : Str → List Str) :
    List LiNode → Str → Option ListContent → Str × Option ListContent
| [], raw, sub => (raw, sub)
| .other t :: rest, raw, sub => childFold defs seg rest (raw ++ t) sub
| .list tr :: rest, raw, none =>
  childFold defs seg rest raw (some (listTagListContent defs seg tr))
| .list tr :: rest, raw, some lc =>
  childFold defs seg rest (raw ++ listTagText tr) (some lc)

/-- One processed `<li>`: spans from the accumulated raw text, plus the
captured sublist. -/
def processItem (defs : List TagDef) (seg : Str → List Str) :
    LiChildren → ListItem
| .mk nodes =>
  ListItem.mk
    (itemSpans defs seg (childFold defs seg nodes [] none).1)
    (childFold defs seg nodes [] none).2

def processItems (defs : List TagDef) (seg : Str → List Str) :
    List LiChildren → List ListItem
| [] => []
| item :: rest => processItem defs seg item :: processItems defs seg rest

/-- The `ListContent` produced for a `<ul>`/`<ol>` tag. -/
def listTagListContent (defs : List TagDef) (seg : Str → List Str) :
    ListTag → ListContent
| .mk ordered items => ListContent.mk ordered (processItems defs seg items)

end

/-- `_get_list_content_from_tag(tag)`: a `LumiContent` wrapping the list
for list tags, `None` otherwise. -/
def _get_list_content_from_tag (defs : List TagDef) (seg : Str → List Str) :
    LiNode → Option LumiContent
| .other _ => none
| .list tr =>
  some ⟨get_unique_id, none, none, none, none,
    some (listTagListContent defs seg tr)⟩

/-- The first nested-list child of an item, if any (reference function for
the amended C5). -/
def firstListChild : List LiNode → Option ListTag
| [] => none
| .list tr :: _ => some tr
| .other _ :: rest => firstListChild rest

/-- The item's children with only the first nested-list child removed
(reference function for the amended C5). -/
def removeFirstList : List LiNode → List LiNode
| [] => []
| .list _ :: rest => rest
| .other t :: rest => .other t :: removeFirstList rest

theorem childFold_some (defs : List TagDef) (seg : Str → List Str) :
    ∀ (nodes : List LiNode) (raw : Str) (lc : ListContent),
      childFold defs seg nodes raw (some lc) =
        (raw ++ nodesText nodes, some lc) := by
  intro nodes
  induction nodes with
  | nil => intro raw lc; simp [childFold, nodesText]
  | cons n rest ih =>
    intro raw lc
    cases n with
    | other t => rw [childFold, nodesText, ih, List.append_assoc]
    | list tr => rw [childFold, nodesText, ih, List.append_assoc]

theorem childFold_none (defs : List TagDef) (seg : Str → List Str) :
    ∀ (nodes : List LiNode) (raw : Str),
      childFold defs seg nodes raw none =
        (raw ++ nodesText (removeFirstList nodes),
          (firstListChild nodes).map (listTagListContent defs seg)) := by
  intro nodes
  induction nodes with
  | nil => intro raw; simp [childFold, removeFirstList, firstListChild,
      nodesText]
  | cons n rest ih =>
    intro raw
    cases n with
    | other t =>
      rw [childFold, removeFirstList, firstListChild, ih, nodesText,
        List.append_assoc]
    | list tr =>
      rw [childFold, removeFirstList, firstListChild,
        childFold_some defs seg rest raw (listTagListContent defs seg tr),
        Option.map_some']

theorem processItem_mk (defs : List TagDef) (seg : Str → List Str)
    (nodes : List LiNode) :
    processItem defs seg (.mk nodes) =
      ListItem.mk (itemSpans defs seg (childFold defs seg nodes [] none).1)
        (childFold defs seg nodes [] none).2 := by
  rw [processItem]

/-- Parsing the empty content yields empty cleaned text and no tags. -/
theorem parse_nil (defs : List TagDef) :
    parse_text_and_extract_inner_tags defs [] = ([], []) := rfl

/-- Counterexample for claim C5 as stated: an item whose children are the
text "Item", a first nested list (item "a") and a second nested list
(item "X").  The claim says the second nested list contributes nothing to
the item's output; in fact its flattened text "X" is appended to the item's
own text, giving the span text "ItemX". -/
theorem c5_counterexample :
    processItem demoDefs (fun s => [s])
      (LiChildren.mk [LiNode.other ['I', 't', 'e', 'm'],
        LiNode.list (ListTag.mk false [LiChildren.mk [LiNode.other ['a']]]),
        LiNode.list (ListTag.mk false
          [LiChildren.mk [LiNode.other ['X']]])]) =
      ListItem.mk [⟨get_unique_id, ['I', 't', 'e', 'm', 'X'], []⟩]
        (some (ListContent.mk false
          [ListItem.mk [⟨get_unique_id, ['a'], []⟩] none])) ∧
    (['I', 't', 'e', 'm', 'X'] : Str) ≠ ['I', 't', 'e', 'm'] :=
  ⟨rfl, by decide⟩

/-- Claim C5, amended: for every list item, only the first nested list
child is recursed into and retained as the item's `subListContent`;
subsequent nested lists in the same item are not retained as sublists, but
they are not discarded either — their flattened visible text is appended to
the item's own raw text (the `else` branch adds `child_node.get_text()`).
The item's spans are produced from the children with only the first nested
list removed; whitespace-only raw text with no extracted tags (in
particular an item whose only child is its nested list) yields an empty
spans sequence. -/
theorem c5_first_nested_list (defs : List TagDef) (seg : Str → List Str)
    (nodes : List LiNode) :
    (processItem defs seg (.mk nodes)).subListContent =
      (firstListChild nodes).map (listTagListContent defs seg) ∧
    (processItem defs seg (.mk nodes)).spans =
      itemSpans defs seg (nodesText (removeFirstList nodes)) ∧
    (∀ raw : Str,
      pyStripEmpty (parse_text_and_extract_inner_tags defs raw).1 = true →
      (parse_text_and_extract_inner_tags defs raw).2 = [] →
      itemSpans defs seg raw = []) ∧
    (∀ tr : ListTag,
      (processItem defs seg (.mk [LiNode.list tr])).spans = []) := by
  have hspans : ∀ raw : Str,
      pyStripEmpty (parse_text_and_extract_inner_tags defs raw).1 = true →
      (parse_text_and_extract_inner_tags defs raw).2 = [] →
      itemSpans defs seg raw = [] := by
    intro raw h1 h2
    unfold itemSpans
    rw [h1, h2]
    simp
  refine ⟨?_, ?_, hspans, ?_⟩
  · rw [processItem_mk, childFold_none]
    rfl
  · rw [processItem_mk, childFold_none]
    rfl
  · intro tr
    rw [processItem_mk, childFold_none]
    show itemSpans defs seg ([] ++ nodesText (removeFirstList [.list tr])) = []
    rw [removeFirstList]
    show itemSpans defs seg [] = []
    apply hspans
    · rw [parse_nil]; rfl
    · rw [parse_nil]

/-- Witness for the amended C5 at concrete inputs. -/
theorem c5_witness :
    ((processItem demoDefs (fun s => [s])
        (.mk [LiNode.other ['I', 't', 'e', 'm'],
          LiNode.list (ListTag.mk false
            [LiChildren.mk [LiNode.other ['a']]]),
          LiNode.list (ListTag.mk false
            [LiChildren.mk [LiNode.other ['X']]])])).subListContent =
      (firstListChild [LiNode.other ['I', 't', 'e', 'm'],
          LiNode.list (ListTag.mk false
            [LiChildren.mk [LiNode.other ['a']]]),
          LiNode.list (ListTag.mk false
            [LiChildren.mk [LiNode.other ['X']]])]).map
        (listTagListContent demoDefs (fun s => [s]))) ∧
    itemSpans demoDefs (fun s => [s]) [' '] = [] ∧
    (processItem demoDefs (fun s => [s])
      (.mk [LiNode.list (ListTag.mk false
        [LiChildren.mk [LiNode.other ['X']]])])).spans = [] := by
  obtain ⟨h1, _, h3, h4⟩ := c5_first_nested_list demoDefs (fun s => [s])
    [LiNode.other ['I', 't', 'e', 'm'],
      LiNode.list (ListTag.mk false [LiChildren.mk [LiNode.other ['a']]]),
      LiNode.list (ListTag.mk false [LiChildren.mk [LiNode.other ['X']]])]
  refine ⟨h1, ?_, h4 (ListTag.mk false [LiChildren.mk [LiNode.other ['X']]])⟩
  exact h3 [' '] (by rfl) (by rfl)

/-- `PLACEHOLDER_PREFIX` (import_pipeline.py line 64). -/
def phHead : Str := ("[[LUMI_PLACEHOLDER_").toList

/-- `PLACEHOLDER_SUFFIX` (import_pipeline.py line 65). -/
def phTail : Str := ("]]").toList

/-- `pat` occurs in `s` at index `i`. -/
def occursAtB (pat s : Str) (i : Nat) : Bool :=
  decide (i + pat.length ≤ s.length ∧
    extractSlice s i (i + pat.length) = pat)

theorem occursAtB_true {pat s : Str} {i : Nat} (h : occursAtB pat s i = true) :
    i + pat.length ≤ s.length ∧ extractSlice s i (i + pat.length) = pat :=
  of_decide_eq_true h

/-- The lazy `.*?` continuation of the placeholder regex
`re.escape(PLACEHOLDER_PREFIX) + ".*?" + re.escape(PLACEHOLDER_SUFFIX)`:
from content start `i0`, scan forward for the earliest suffix occurrence; a
newline reached first means no match at this start (`.` does not match
newline). -/
def phScanEnd (s : Str) (i0 : Nat) : Option Nat :=
  match firstSuchThat
      (fun j => occursAtB phTail s j || decide (s[j]? = some '\n'))
      i0 (s.length + 1 - i0) with
  | none => none
  | some j => if occursAtB phTail s j then some (j + phTail.length) else none

/-- The end of the placeholder match starting at `i` (the lazy content
scan starts right after the prefix). -/
def phMatchEnd (s : Str) (i : Nat) : Option Nat :=
  phScanEnd s (i + phHead.length)

/-- The leftmost placeholder-match start at or after `pos`. -/
def phMatchStart (s : Str) (pos : Nat) : Option Nat :=
  firstSuchThat
    (fun i => occursAtB phHead s i && (phMatchEnd s i).isSome)
    pos (s.length + 1 - pos)

/-- One step of the finditer scan from `pos`: the next match interval
`[start, end)` when a placeholder occurrence exists at or after `pos`. -/
def pyStep (s : Str) (pos : Nat) : Option (Nat × Nat) :=
  match phMatchStart s pos with
  | none => none
  | some i =>
    match phMatchEnd s i with
    | none => none
    | some e => some (i, e)

/-- `placeholder_pattern.finditer(text)`: the list of non-overlapping
leftmost match intervals `[start, end)`, scanning from `pos`. -/
def pyFinditerPH (s : Str) : Nat → Nat → List (Nat × Nat)
| 0, _ => []
| fuel + 1, pos =>
  match pyStep s pos with
  | none => []
  | some ie => ie :: pyFinditerPH s fuel ie.2

/-- All placeholder matches of `s`. -/
def placeholderMatches (s : Str) : List (Nat × Nat) :=
  pyFinditerPH s (s.length + 1) 0

/-- The `TextContent` block (if any) produced from one plain-text segment
in `_parse_html_block_for_lumi_contents`: skip whitespace-only segments,
parse inline tags, build sentence spans, and emit a block only when spans
are non-empty.  (Python computes the span list once; here the calls are
repeated, which is the same value for these pure functions.) -/
def textBlocks (defs : List TagDef) (seg : Str → List Str)
    (tagName : String) (t : Str) : List LumiContent :=
  if pyStripEmpty t then []
  else
    if (create_lumi_spans seg (parse_text_and_extract_inner_tags defs t).1
        (parse_text_and_extract_inner_tags defs t).2 false).isEmpty then []
    else
      [⟨get_unique_id,
        some ⟨tagName,
          create_lumi_spans seg (parse_text_and_extract_inner_tags defs t).1
            (parse_text_and_extract_inner_tags defs t).2 false⟩,
        none, none, none, none⟩]

/-- `placeholder_id in placeholder_map` plus the lookup (the dict is
modelled as an association list). -/
def lookupPH : List (Str × LumiContent) → Str → Option LumiContent
| [], _ => none
| (k, v) :: rest, key => if k = key then some v else lookupPH rest key

/-- The `for match in placeholder_pattern.finditer(text)` loop of
`_parse_html_block_for_lumi_contents` (import_pipeline.py lines 351-390),
over the precomputed match list, carrying `current_pos`. -/
def parseBlockGo (defs : List TagDef) (seg : Str → List Str)
    (tagName : String) (phmap : List (Str × LumiContent)) (text : Str) :
    List (Nat × Nat) → Nat → List LumiContent
| [], pos =>
  if pos < text.length then textBlocks defs seg tagName (text.drop pos)
  else []
| (s0, e0) :: rest, pos =>
  (if pos < s0 then textBlocks defs seg tagName (extractSlice text pos s0)
    else [])
  ++ (match lookupPH phmap (extractSlice text s0 e0) with
      | some c => [c]
      | none => [])
  ++ parseBlockGo defs seg tagName phmap text rest e0

/-- `_parse_html_block_for_lumi_contents(text, original_tag_name,
placeholder_map)` (import_pipeline.py lines 332-392).  The Python function
returns `None` for whitespace-only input; callers only truth-test the
result, so `None` is modelled as `[]`. -/
def _parse_html_block_for_lumi_contents (defs : List TagDef)
    (seg : Str → List Str) (text : Str) (tagName : String)
    (phmap : List (Str × LumiContent)) : List LumiContent :=
  if pyStripEmpty text then []
  else parseBlockGo defs seg tagName phmap text (placeholderMatches text) 0

/-- The decomposition of `text` induced by a match list: the (segment,
token) pairs and the trailing segment. -/
def phPiecesGo (text : Str) : List (Nat × Nat) → Nat → List (Str × Str) × Str
| [], pos => ([], text.drop pos)
| (s0, e0) :: rest, pos =>
  ((extractSlice text pos s0, extractSlice text s0 e0)
      :: (phPiecesGo text rest e0).1,
    (phPiecesGo text rest e0).2)

/-- Reassembling a decomposition. -/
def phFlatten (ps : List (Str × Str)) (trail : Str) : Str :=
  match ps with
  | [] => trail
  | (pre, tok) :: rest => pre ++ tok ++ phFlatten rest trail

/-- The block list produced from a decomposition: each segment's text
block (if non-whitespace and with non-empty spans), each token's mapped
content when present — a token absent from the side table contributes
nothing. -/
def assemblePieces (defs : List TagDef) (seg : Str → List Str)
    (tagName : String) (phmap : List (Str × LumiContent)) :
    List (Str × Str) → Str → List LumiContent
| [], trail => textBlocks defs seg tagName trail
| (pre, tok) :: rest, trail =>
  textBlocks defs seg tagName pre ++ (lookupPH phmap tok).toList
    ++ assemblePieces defs seg tagName phmap rest trail

theorem slice_append_drop (s : Str) {a b : Nat} (hab : a ≤ b)
    (hb : b ≤ s.length) : extractSlice s a b ++ s.drop b = s.drop a := by
  unfold extractSlice
  conv_rhs => rw [← List.take_append_drop b s]
  rw [List.drop_append_eq_append_drop]
  have hlen : (s.take b).length = b := List.length_take_of_le hb
  rw [hlen]
  have : a - b = 0 := by omega
  rw [this, List.drop_zero]

theorem extractSlice_nil_of_le {s : Str} {a b : Nat} (h : b ≤ a) :
    extractSlice s a b = [] := by
  unfold extractSlice
  apply List.drop_eq_nil_of_le
  have := List.length_take_le b s
  omega

theorem textBlocks_nil (defs : List TagDef) (seg : Str → List Str)
    (tagName : String) : textBlocks defs seg tagName [] = [] := by
  rw [textBlocks]
  rfl

theorem phScanEnd_sound {s : Str} {i0 e : Nat}
    (h : phScanEnd s i0 = some e) :
    i0 + phTail.length ≤ e ∧ e ≤ s.length := by
  unfold phScanEnd at h
  cases hf : firstSuchThat
      (fun j => occursAtB phTail s j || decide (s[j]? = some '\n'))
      i0 (s.length + 1 - i0) with
  | none => rw [hf] at h; exact absurd h (by simp)
  | some j =>
    rw [hf] at h
    replace h : (if occursAtB phTail s j = true
        then some (j + phTail.length) else none) = some e := h
    by_cases ht : occursAtB phTail s j = true
    · rw [if_pos ht] at h
      injection h with h
      subst h
      obtain ⟨hb, _⟩ := occursAtB_true ht
      obtain ⟨_, hle, _, _⟩ := firstSuchThat_sound _ _ _ _ hf
      exact ⟨by omega, hb⟩
    · rw [if_neg ht] at h
      exact absurd h (by simp)

theorem phMatchEnd_sound {s : Str} {i e : Nat}
    (h : phMatchEnd s i = some e) :
    i + phHead.length + phTail.length ≤ e ∧ e ≤ s.length := by
  have := phScanEnd_sound h
  omega

theorem phMatchStart_sound {s : Str} {pos i : Nat}
    (h : phMatchStart s pos = some i) :
    pos ≤ i ∧ occursAtB phHead s i = true ∧
      (phMatchEnd s i).isSome = true := by
  obtain ⟨hp, hle, _, _⟩ := firstSuchThat_sound _ _ _ _ h
  rw [Bool.and_eq_true] at hp
  exact ⟨hle, hp.1, hp.2⟩

theorem pyStep_nomatch {s : Str} {pos : Nat}
    (hm : phMatchStart s pos = none) : pyStep s pos = none := by
  unfold pyStep; rw [hm]

theorem pyStep_noend {s : Str} {pos i : Nat}
    (hm : phMatchStart s pos = some i) (he : phMatchEnd s i = none) :
    pyStep s pos = none := by
  unfold pyStep; rw [hm]
  show (match phMatchEnd s i with
        | none => none | some e => some (i, e)) = none
  rw [he]

theorem pyStep_match {s : Str} {pos i e : Nat}
    (hm : phMatchStart s pos = some i) (he : phMatchEnd s i = some e) :
    pyStep s pos = some (i, e) := by
  unfold pyStep; rw [hm]
  show (match phMatchEnd s i with
        | none => none | some e => some (i, e)) = some (i, e)
  rw [he]

theorem pyFinditerPH_succ_none {s : Str} {fuel pos : Nat}
    (hm : pyStep s pos = none) :
    pyFinditerPH s (fuel + 1) pos = [] := by
  rw [pyFinditerPH, hm]

theorem pyFinditerPH_succ_some {s : Str} {fuel pos i e : Nat}
    (hm : pyStep s pos = some (i, e)) :
    pyFinditerPH s (fuel + 1) pos = (i, e) :: pyFinditerPH s fuel e := by
  rw [pyFinditerPH, hm]

/-- Tiling: the decomposition induced by the finditer scan reassembles to
the scanned suffix of the text — token characters live exactly in the
excised match intervals, segments exactly in between. -/
theorem pyFinditerPH_tiling (s : Str) :
    ∀ (fuel pos : Nat),
      phFlatten (phPiecesGo s (pyFinditerPH s fuel pos) pos).1
        (phPiecesGo s (pyFinditerPH s fuel pos) pos).2 = s.drop pos := by
  intro fuel
  induction fuel with
  | zero => intro pos; rfl
  | succ fuel ih =>
    intro pos
    cases hm : phMatchStart s pos with
    | none => rw [pyFinditerPH_succ_none (pyStep_nomatch hm)]; rfl
    | some i =>
      cases he : phMatchEnd s i with
      | none => rw [pyFinditerPH_succ_none (pyStep_noend hm he)]; rfl
      | some e =>
        rw [pyFinditerPH_succ_some (pyStep_match hm he)]
        obtain ⟨hpi, hocc, _⟩ := phMatchStart_sound hm
        obtain ⟨hie, hel⟩ := phMatchEnd_sound he
        obtain ⟨hhead, _⟩ := occursAtB_true hocc
        rw [phPiecesGo, phFlatten, List.append_assoc]
        rw [ih e]
        rw [slice_append_drop s (by omega) hel]
        rw [slice_append_drop s (by omega) (by omega)]

/-- The cursor loop of `_parse_html_block_for_lumi_contents` computes
exactly the assembly of the induced decomposition: one text block per
non-whitespace segment with non-empty spans, the mapped content for each
token found in the side table, and nothing — with the surrounding segments
still emitted — for a token absent from it. -/
theorem parseBlockGo_assemble (defs : List TagDef) (seg : Str → List Str)
    (tagName : String) (phmap : List (Str × LumiContent)) (text : Str) :
    ∀ (ms : List (Nat × Nat)) (pos : Nat),
      parseBlockGo defs seg tagName phmap text ms pos =
        assemblePieces defs seg tagName phmap
          (phPiecesGo text ms pos).1 (phPiecesGo text ms pos).2 := by
  intro ms
  induction ms with
  | nil =>
    intro pos
    rw [parseBlockGo, phPiecesGo, assemblePieces]
    by_cases hp : pos < text.length
    · rw [if_pos hp]
    · rw [if_neg hp]
      rw [@List.drop_eq_nil_of_le _ text pos (by omega), textBlocks_nil]
  | cons m rest ih =>
    obtain ⟨s0, e0⟩ := m
    intro pos
    rw [parseBlockGo, phPiecesGo, assemblePieces, ih e0]
    by_cases hp : pos < s0
    · rw [if_pos hp]
      cases lookupPH phmap (extractSlice text s0 e0) with
      | none => rfl
      | some c => rfl
    · rw [if_neg hp, @extractSlice_nil_of_le text pos s0 (by omega),
        textBlocks_nil]
      cases lookupPH phmap (extractSlice text s0 e0) with
      | none => rfl
      | some c => rfl

theorem textBlocks_text {defs : List TagDef} {seg : Str → List Str}
    {tagName : String} {t : Str} :
    ∀ c ∈ textBlocks defs seg tagName t, ∃ tc, c.text_content = some tc := by
  intro c hc
  unfold textBlocks at hc
  by_cases h1 : pyStripEmpty t = true
  · rw [if_pos h1] at hc
    cases hc
  · rw [if_neg h1] at hc
    by_cases h2 : (create_lumi_spans seg
        (parse_text_and_extract_inner_tags defs t).1
        (parse_text_and_extract_inner_tags defs t).2 false).isEmpty = true
    · rw [if_pos h2] at hc
      cases hc
    · rw [if_neg h2] at hc
      rcases List.mem_singleton.mp hc with rfl
      exact ⟨_, rfl⟩

theorem assemblePieces_provenance (defs : List TagDef)
    (seg : Str → List Str) (tagName : String)
    (phmap : List (Str × LumiContent)) :
    ∀ (ps : List (Str × Str)) (trail : Str),
      ∀ c ∈ assemblePieces defs seg tagName phmap ps trail,
        (∃ tc, c.text_content = some tc) ∨
        ∃ p ∈ ps, lookupPH phmap p.2 = some c := by
  intro ps
  induction ps with
  | nil =>
    intro trail c hc
    rw [assemblePieces] at hc
    exact Or.inl (textBlocks_text c hc)
  | cons p rest ih =>
    obtain ⟨pre, tok⟩ := p
    intro trail c hc
    rw [assemblePieces] at hc
    rcases List.mem_append.mp hc with hc | hc
    · rcases List.mem_append.mp hc with hc | hc
      · exact Or.inl (textBlocks_text c hc)
      · cases hl : lookupPH phmap tok with
        | none => rw [hl] at hc; cases hc
        | some v =>
          rw [hl] at hc
          rcases List.mem_singleton.mp hc with rfl
          exact Or.inr ⟨(pre, tok), List.mem_cons_self _ _, hl⟩
    · rcases ih trail c hc with hin | ⟨q, hq, hlk⟩
      · exact Or.inl hin
      · exact Or.inr ⟨q, List.mem_cons_of_mem _ hq, hlk⟩

/-- Claim C8: a placeholder token present in the text but absent from the
side table is dropped silently.  Formalised: (1) the block parser's output
is exactly the assembly of the text's finditer decomposition, in which a
token contributes `(lookup map token).toList` — i.e. nothing when absent —
while the surrounding segments still contribute their text blocks; (2) the
decomposition tiles the text exactly, so a matched token's literal
characters lie in the excised interval and in no emitted segment; (3) every
produced block either is a `TextContent` built from a segment or is the
side-table entry of a token that is present in the table. -/
theorem c8_missing_placeholder (defs : List TagDef) (seg : Str → List Str)
    (text : Str) (tagName : String) (phmap : List (Str × LumiContent))
    (h : pyStripEmpty text = false) :
    _parse_html_block_for_lumi_contents defs seg text tagName phmap =
      assemblePieces defs seg tagName phmap
        (phPiecesGo text (placeholderMatches text) 0).1
        (phPiecesGo text (placeholderMatches text) 0).2 ∧
    phFlatten (phPiecesGo text (placeholderMatches text) 0).1
      (phPiecesGo text (placeholderMatches text) 0).2 = text ∧
    (∀ c ∈ _parse_html_block_for_lumi_contents defs seg text tagName phmap,
      (∃ tc, c.text_content = some tc) ∨
      ∃ p ∈ (phPiecesGo text (placeholderMatches text) 0).1,
        lookupPH phmap p.2 = some c) := by
  have heq : _parse_html_block_for_lumi_contents defs seg text tagName phmap
      = assemblePieces defs seg tagName phmap
        (phPiecesGo text (placeholderMatches text) 0).1
        (phPiecesGo text (placeholderMatches text) 0).2 := by
    unfold _parse_html_block_for_lumi_contents
    rw [h]
    simp only [Bool.false_eq_true, if_false]
    exact parseBlockGo_assemble defs seg tagName phmap text
      (placeholderMatches text) 0
  refine ⟨heq, ?_, ?_⟩
  · have := pyFinditerPH_tiling text (text.length + 1) 0
    rw [List.drop_zero] at this
    exact this
  · intro c hc
    rw [heq] at hc
    exact assemblePieces_provenance defs seg tagName phmap _ _ c hc

/-- Concrete text for the C8 witness: two tokens, the second missing from
the side table. -/
def c8textDemo : Str :=
  ("A [[LUMI_PLACEHOLDER_1]] M [[LUMI_PLACEHOLDER_2]] B").toList

/-- Side table for the C8 witness: only the first token is present. -/
def c8mapDemo : List (Str × LumiContent) :=
  [(("[[LUMI_PLACEHOLDER_1]]").toList, demoContent)]

/-- Witness for C8 at concrete inputs. -/
theorem c8_witness :
    _parse_html_block_for_lumi_contents demoDefs (fun s => [s]) c8textDemo
        "p" c8mapDemo =
      assemblePieces demoDefs (fun s => [s]) "p" c8mapDemo
        (phPiecesGo c8textDemo (placeholderMatches c8textDemo) 0).1
        (phPiecesGo c8textDemo (placeholderMatches c8textDemo) 0).2 ∧
    phFlatten (phPiecesGo c8textDemo (placeholderMatches c8textDemo) 0).1
      (phPiecesGo c8textDemo (placeholderMatches c8textDemo) 0).2 =
        c8textDemo ∧
    (∀ c ∈ _parse_html_block_for_lumi_contents demoDefs (fun s => [s])
        c8textDemo "p" c8mapDemo,
      (∃ tc, c.text_content = some tc) ∨
      ∃ p ∈ (phPiecesGo c8textDemo (placeholderMatches c8textDemo) 0).1,
        lookupPH c8mapDemo p.2 = some c) :=
  c8_missing_placeholder demoDefs (fun s => [s]) c8textDemo "p" c8mapDemo
    (by decide)

/-! ### C4: figure placeholder substitution (`preprocess_and_replace_figures`) -/

theorem extractSlice_eq_drop_take (s : Str) (i k : Nat) :
    extractSlice s i (i + k) = (s.drop i).take k := by
  unfold extractSlice
  rw [List.drop_take]
  congr 1
  omega

theorem occursAtB_iff {pat s : Str} {i : Nat} :
    occursAtB pat s i = true ↔
      i + pat.length ≤ s.length ∧ (s.drop i).take pat.length = pat := by
  unfold occursAtB
  constructor
  · intro h
    obtain ⟨h1, h2⟩ := of_decide_eq_true h
    rw [extractSlice_eq_drop_take] at h2
    exact ⟨h1, h2⟩
  · intro ⟨h1, h2⟩
    exact decide_eq_true ⟨h1, by rw [extractSlice_eq_drop_take]; exact h2⟩

theorem occursAtB_append_left {a b s : Str} {i : Nat}
    (h : occursAtB (a ++ b) s i = true) : occursAtB a s i = true := by
  obtain ⟨h1, h2⟩ := occursAtB_iff.mp h
  rw [List.length_append] at h1
  refine occursAtB_iff.mpr ⟨by omega, ?_⟩
  have := congrArg (List.take a.length) h2
  rw [List.take_take, List.length_append, Nat.min_def] at this
  rw [if_pos (by omega)] at this
  rw [this, List.take_left]

theorem occursAtB_append_right {a b s : Str} {i : Nat}
    (h : occursAtB (a ++ b) s i = true) :
    occursAtB b s (i + a.length) = true := by
  obtain ⟨h1, h2⟩ := occursAtB_iff.mp h
  rw [List.length_append] at h1
  refine occursAtB_iff.mpr ⟨by omega, ?_⟩
  have := congrArg (List.drop a.length) h2
  rw [List.drop_take, List.drop_drop, List.drop_left] at this
  rw [List.length_append] at this
  rw [show a.length + b.length - a.length = b.length by omega] at this
  exact this

/-- A literal written directly between two context strings occurs there. -/
theorem occursAtB_here (u v w : Str) :
    occursAtB v (u ++ (v ++ w)) u.length = true := by
  refine occursAtB_iff.mpr ⟨?_, ?_⟩
  · rw [List.length_append, List.length_append]
    omega
  · rw [List.drop_left]
    rw [List.take_append_of_le_length (Nat.le_refl _), List.take_length]

theorem occursAtB_getElem {pat s : Str} {i : Nat}
    (h : occursAtB pat s i = true) :
    ∀ k, k < pat.length → s[i + k]? = pat[k]? := by
  obtain ⟨h1, h2⟩ := occursAtB_iff.mp h
  intro k hk
  have := congrArg (fun l => l[k]?) h2
  simp only [] at this
  rw [List.getElem?_take, if_pos hk, List.getElem?_drop] at this
  exact this

theorem firstSuchThat_eq_some (p : Nat → Bool) :
    ∀ (fuel start i : Nat), start ≤ i → i < start + fuel → p i = true →
      (∀ j, start ≤ j → j < i → p j = false) →
      firstSuchThat p start fuel = some i := by
  intro fuel
  induction fuel with
  | zero => intro start i h1 h2; omega
  | succ fuel ih =>
    intro start i h1 h2 hp hmin
    rw [firstSuchThat]
    by_cases hs : i = start
    · subst hs; rw [if_pos hp]
    · have : p start = false := hmin start (Nat.le_refl _) (by omega)
      rw [if_neg (by rw [this]; exact Bool.false_ne_true)]
      exact ih (start + 1) i (by omega) (by omega) hp
        (fun j hj1 hj2 => hmin j (by omega) hj2)

/-- Python `str.strip()`: whitespace removed from both ends. -/
def pyStrip (s : Str) : Str :=
  ((s.dropWhile pyIsSpace).reverse.dropWhile pyIsSpace).reverse

/-- `image_path.replace("/", STORAGE_PATH_DELIMETER)` with
`STORAGE_PATH_DELIMETER = "__"` (import_pipeline.py lines 63, 418). -/
def flattenPath : Str → Str
| [] => []
| c :: rest => (if c = '/' then ['_', '_'] else [c]) ++ flattenPath rest

/-- `_get_placeholder_id(uid)` (import_pipeline.py line 401):
`PLACEHOLDER_PREFIX + uid + PLACEHOLDER_SUFFIX`. -/
def phToken (uid : Str) : Str := phHead ++ uid ++ phTail

/-- Modelled from the spec: each of the three block-pattern families of
`shared.import_tags` (bare image+caption, multi-image figure container,
literal-HTML figure container) is a delimiter pair with a lazy body group
(`head(.*?)tail` over arbitrary inner bodies); the optional caption group
is modelled as absent, so every caption text is the empty string. -/
structure BlockPat where
  bphead : Str
  bptail : Str

/-- The lazy body scan of a block pattern: the leftmost tail occurrence at
or after `i0`, returning the position one past it. -/
def bpScanEnd (bp : BlockPat) (s : Str) (i0 : Nat) : Option Nat :=
  match firstSuchThat (fun j => occursAtB bp.bptail s j) i0
      (s.length + 1 - i0) with
  | none => none
  | some j => some (j + bp.bptail.length)

/-- The end of the block-pattern match starting at `i`. -/
def bpMatchEnd (bp : BlockPat) (s : Str) (i : Nat) : Option Nat :=
  bpScanEnd bp s (i + bp.bphead.length)

/-- Match-start test for the block-pattern scan. -/
def bpPred (bp : BlockPat) (s : Str) (i : Nat) : Bool :=
  occursAtB bp.bphead s i && (bpMatchEnd bp s i).isSome

/-- One step of the block-pattern scan from `pos`: the next match interval
`[start, end)`. -/
def bpStep (bp : BlockPat) (s : Str) (pos : Nat) : Option (Nat × Nat) :=
  match firstSuchThat (bpPred bp s) pos (s.length + 1 - pos) with
  | none => none
  | some i =>
    match bpMatchEnd bp s i with
    | none => none
    | some e => some (i, e)

/-- The body group of a block-pattern match `[i, e)`. -/
def bpBody (bp : BlockPat) (s : Str) (i e : Nat) : Str :=
  extractSlice s (i + bp.bphead.length) (e - bp.bptail.length)

/-- `pattern.finditer(s)` for a block pattern. -/
def bpFinditer (bp : BlockPat) (s : Str) : Nat → Nat → List (Nat × Nat)
| 0, _ => []
| fuel + 1, pos =>
  match bpStep bp s pos with
  | none => []
  | some ie => ie :: bpFinditer bp s fuel ie.2

/-- A delimiter-pair block marker instance: head, body, tail.  Used to
state the C4 scenarios. -/
def pairMarker (bp : BlockPat) (body : Str) : Str :=
  bp.bphead ++ body ++ bp.bptail

/-- `_create_caption_span(caption_text)` (import_pipeline.py lines
403-413): parse the caption, build spans in skip-tokenize mode, return the
first span if any. -/
def _create_caption_span (defs : List TagDef) (seg : Str → List Str)
    (t : Str) : Option LumiSpan :=
  if t.isEmpty then none
  else (create_lumi_spans seg (parse_text_and_extract_inner_tags defs t).1
    (parse_text_and_extract_inner_tags defs t).2 true).head?

/-- `_create_image_content(image_path, caption_text)` (import_pipeline.py
lines 415-428): flattened storage path under `{file_id}/images/`, empty
alt text, zero width/height. -/
def _create_image_content (defs : List TagDef) (seg : Str → List Str)
    (file_id : Str) (image_path caption_text : Str) : ImageContent :=
  ⟨image_path,
   file_id ++ ("/images/").toList ++ flattenPath image_path,
   [], _create_caption_span defs seg caption_text, 0, 0⟩

/-- `image_replacer(match)` (import_pipeline.py lines 430-440): fresh id,
an `ImageContent` entry in the side table, the token as replacement.  The
external unique-id source is the injectable `ids` indexed by a running
call counter. -/
def image_replacer (defs : List TagDef) (seg : Str → List Str)
    (ids : Nat → Str) (file_id : Str) (ctr : Nat)
    (mp : List (Str × LumiContent)) (body : Str) :
    Str × List (Str × LumiContent) × Nat :=
  (phToken (ids ctr),
   mp ++ [(phToken (ids ctr),
     ⟨String.mk (ids ctr), none,
      some (_create_image_content defs seg file_id body []), none, none,
      none⟩)],
   ctr + 1)

/-- `figure_replacer(match)` (import_pipeline.py lines 441-464): fresh id,
a `FigureContent` whose images are one `ImageContent` per bare image+caption
match found *inside the figure body* by the nested finditer, the token as
replacement. -/
def figure_replacer (defs : List TagDef) (seg : Str → List Str)
    (imgP : BlockPat) (ids : Nat → Str) (file_id : Str) (ctr : Nat)
    (mp : List (Str × LumiContent)) (body : Str) :
    Str × List (Str × LumiContent) × Nat :=
  (phToken (ids ctr),
   mp ++ [(phToken (ids ctr),
     ⟨String.mk (ids ctr), none, none,
      some ⟨(bpFinditer imgP body (body.length + 1) 0).map
          (fun ie => _create_image_content defs seg file_id
            (bpBody imgP body ie.1 ie.2) []),
        _create_caption_span defs seg []⟩, none, none⟩)],
   ctr + 1)

/-- `html_figure_replacer(match)` (import_pipeline.py lines 466-479):
fresh id, an `HtmlFigureContent` holding the stripped body, the token as
replacement. -/
def html_figure_replacer (defs : List TagDef) (seg : Str → List Str)
    (ids : Nat → Str) (file_id : Str) (ctr : Nat)
    (mp : List (Str × LumiContent)) (body : Str) :
    Str × List (Str × LumiContent) × Nat :=
  (phToken (ids ctr),
   mp ++ [(phToken (ids ctr),
     ⟨String.mk (ids ctr), none, none, none,
      some ⟨pyStrip body, _create_caption_span defs seg []⟩, none⟩)],
   ctr + 1)

/-- `pattern.sub(replacer, s)` with a stateful replacer: Python mutates
the id counter and the placeholder map through the closure; here the state
is threaded explicitly and the result is `(new text, map, counter)`. -/
def gsubGo (bp : BlockPat)
    (repl : Nat → List (Str × LumiContent) → Str →
      Str × List (Str × LumiContent) × Nat) (s : Str) :
    Nat → Nat → Nat → List (Str × LumiContent) →
      Str × List (Str × LumiContent) × Nat
| 0, pos, ctr, mp => (s.drop pos, mp, ctr)
| fuel + 1, pos, ctr, mp =>
  match bpStep bp s pos with
  | none => (s.drop pos, mp, ctr)
  | some ie =>
    (extractSlice s pos ie.1 ++ (repl ctr mp (bpBody bp s ie.1 ie.2)).1 ++
      (gsubGo bp repl s fuel ie.2 (repl ctr mp (bpBody bp s ie.1 ie.2)).2.2
        (repl ctr mp (bpBody bp s ie.1 ie.2)).2.1).1,
     (gsubGo bp repl s fuel ie.2 (repl ctr mp (bpBody bp s ie.1 ie.2)).2.2
        (repl ctr mp (bpBody bp s ie.1 ie.2)).2.1).2.1,
     (gsubGo bp repl s fuel ie.2 (repl ctr mp (bpBody bp s ie.1 ie.2)).2.2
        (repl ctr mp (bpBody bp s ie.1 ie.2)).2.1).2.2)

/-- One full substitution pass over the current text. -/
def runPass (bp : BlockPat)
    (repl : Nat → List (Str × LumiContent) → Str →
      Str × List (Str × LumiContent) × Nat)
    (st : Str × List (Str × LumiContent) × Nat) :
    Str × List (Str × LumiContent) × Nat :=
  gsubGo bp repl st.1 (st.1.length + 1) 0 st.2.2 st.2.1

/-- `preprocess_and_replace_figures(raw_markdown_string, file_id,
placeholder_map)` (import_pipeline.py lines 395-491): three substitution
passes in source order — multi-image figure containers first, then
literal-HTML figure containers, then bare image+caption markers. -/
def preprocess_and_replace_figures (figP htmlP imgP : BlockPat)
    (defs : List TagDef) (seg : Str → List Str) (ids : Nat → Str)
    (file_id : Str) (raw : Str) (ctr : Nat)
    (mp : List (Str × LumiContent)) :
    Str × List (Str × LumiContent) × Nat :=
  runPass imgP (image_replacer defs seg ids file_id)
    (runPass htmlP (html_figure_replacer defs seg ids file_id)
      (runPass figP (figure_replacer defs seg imgP ids file_id)
        (raw, mp, ctr)))

theorem bpScanEnd_sound {bp : BlockPat} {s : Str} {i0 e : Nat}
    (h : bpScanEnd bp s i0 = some e) :
    i0 + bp.bptail.length ≤ e ∧ e ≤ s.length := by
  unfold bpScanEnd at h
  cases hf : firstSuchThat (fun j => occursAtB bp.bptail s j) i0
      (s.length + 1 - i0) with
  | none => rw [hf] at h; exact absurd h (by simp)
  | some j =>
    rw [hf] at h
    injection h with h
    subst h
    obtain ⟨hp, hle, hlt, _⟩ := firstSuchThat_sound _ _ _ _ hf
    obtain ⟨hb, _⟩ := occursAtB_iff.mp hp
    omega

theorem bpStep_eq_none {bp : BlockPat} {s : Str} {pos : Nat}
    (h : ∀ j, pos ≤ j → j ≤ s.length → bpPred bp s j = false) :
    bpStep bp s pos = none := by
  unfold bpStep
  have hf : firstSuchThat (bpPred bp s) pos (s.length + 1 - pos) = none := by
    cases hf : firstSuchThat (bpPred bp s) pos (s.length + 1 - pos) with
    | none => rfl
    | some i =>
      obtain ⟨hp, hle, hlt, _⟩ := firstSuchThat_sound _ _ _ _ hf
      rw [h i hle (by omega)] at hp
      cases hp
  rw [hf]

theorem bpStep_eq_some {bp : BlockPat} {s : Str} {pos i e : Nat}
    (hpos : pos ≤ i) (hbound : i ≤ s.length)
    (hocc : occursAtB bp.bphead s i = true)
    (hend : bpMatchEnd bp s i = some e)
    (hmin : ∀ j, pos ≤ j → j < i → bpPred bp s j = false) :
    bpStep bp s pos = some (i, e) := by
  unfold bpStep
  rw [firstSuchThat_eq_some (bpPred bp s) (s.length + 1 - pos) pos i hpos
    (by omega) (by unfold bpPred; rw [hocc, hend]; rfl) hmin]
  show (match bpMatchEnd bp s i with
        | none => none
        | some e => some (i, e)) = some (i, e)
  rw [hend]

theorem bpFinditer_succ_none {bp : BlockPat} {s : Str} {fuel pos : Nat}
    (hm : bpStep bp s pos = none) :
    bpFinditer bp s (fuel + 1) pos = [] := by
  rw [bpFinditer, hm]

theorem bpFinditer_succ_some {bp : BlockPat} {s : Str} {fuel pos i e : Nat}
    (hm : bpStep bp s pos = some (i, e)) :
    bpFinditer bp s (fuel + 1) pos = (i, e) :: bpFinditer bp s fuel e := by
  rw [bpFinditer, hm]

theorem gsubGo_none {bp : BlockPat}
    {repl : Nat → List (Str × LumiContent) → Str →
      Str × List (Str × LumiContent) × Nat} {s : Str} {pos : Nat}
    (h : bpStep bp s pos = none) :
    ∀ fuel ctr mp, gsubGo bp repl s fuel pos ctr mp = (s.drop pos, mp, ctr) := by
  intro fuel ctr mp
  cases fuel with
  | zero => rfl
  | succ fuel => rw [gsubGo, h]

theorem gsubGo_some {bp : BlockPat}
    {repl : Nat → List (Str × LumiContent) → Str →
      Str × List (Str × LumiContent) × Nat} {s : Str} {pos i e : Nat}
    (h : bpStep bp s pos = some (i, e)) (fuel ctr : Nat)
    (mp : List (Str × LumiContent)) :
    gsubGo bp repl s (fuel + 1) pos ctr mp =
      (extractSlice s pos i ++ (repl ctr mp (bpBody bp s i e)).1 ++
        (gsubGo bp repl s fuel e (repl ctr mp (bpBody bp s i e)).2.2
          (repl ctr mp (bpBody bp s i e)).2.1).1,
       (gsubGo bp repl s fuel e (repl ctr mp (bpBody bp s i e)).2.2
          (repl ctr mp (bpBody bp s i e)).2.1).2.1,
       (gsubGo bp repl s fuel e (repl ctr mp (bpBody bp s i e)).2.2
          (repl ctr mp (bpBody bp s i e)).2.1).2.2) := by
  rw [gsubGo, h]

theorem pyStep_eq_none {s : Str} {pos : Nat}
    (h : ∀ j, pos ≤ j → j ≤ s.length →
      (occursAtB phHead s j && (phMatchEnd s j).isSome) = false) :
    pyStep s pos = none := by
  unfold pyStep
  have hf : phMatchStart s pos = none := by
    unfold phMatchStart
    cases hf : firstSuchThat
        (fun i => occursAtB phHead s i && (phMatchEnd s i).isSome) pos
        (s.length + 1 - pos) with
    | none => rfl
    | some i =>
      obtain ⟨hp, hle, hlt, _⟩ := firstSuchThat_sound _ _ _ _ hf
      rw [h i hle (by omega)] at hp
      cases hp
  rw [hf]

theorem pyStep_eq_some {s : Str} {pos i e : Nat}
    (hpos : pos ≤ i) (hbound : i ≤ s.length)
    (hocc : occursAtB phHead s i = true)
    (hend : phMatchEnd s i = some e)
    (hmin : ∀ j, pos ≤ j → j < i →
      (occursAtB phHead s j && (phMatchEnd s j).isSome) = false) :
    pyStep s pos = some (i, e) := by
  unfold pyStep
  have hf : phMatchStart s pos = some i := by
    unfold phMatchStart
    exact firstSuchThat_eq_some _ _ _ _ hpos (by omega)
      (by rw [hocc, hend]; rfl) hmin
  rw [hf]
  show (match phMatchEnd s i with
        | none => none
        | some e => some (i, e)) = some (i, e)
  rw [hend]

/-- Scanning at a placeholder token occurrence: the prefix matches and the
lazy content scan ends exactly at the token's closing suffix, provided the
id contains no \x5d and no newline. -/
theorem token_scan {s u : Str} {p : Nat}
    (hocc : occursAtB (phToken u) s p = true)
    (hyg : ∀ c ∈ u, c ≠ ']' ∧ c ≠ '\n') :
    occursAtB phHead s p = true ∧
      phMatchEnd s p = some (p + (phToken u).length) := by
  have hlen : (phToken u).length =
      phHead.length + u.length + phTail.length := by
    simp only [phToken, List.length_append]
  obtain ⟨hbound, _⟩ := occursAtB_iff.mp hocc
  have hocc1 : occursAtB (phHead ++ (u ++ phTail)) s p = true := hocc
  have hhead : occursAtB phHead s p = true := occursAtB_append_left hocc1
  have hocc2 : occursAtB ((phHead ++ u) ++ phTail) s p = true := by
    rw [List.append_assoc]
    exact hocc1
  have htail0 := occursAtB_append_right hocc2
  rw [List.length_append] at htail0
  have htail : occursAtB phTail s (p + (phHead.length + u.length)) = true :=
    htail0
  have htl : 0 < phTail.length := by decide
  have hfind : firstSuchThat
      (fun j => occursAtB phTail s j || decide (s[j]? = some '\n'))
      (p + phHead.length) (s.length + 1 - (p + phHead.length)) =
      some (p + (phHead.length + u.length)) := by
    apply firstSuchThat_eq_some
    · omega
    · omega
    · rw [htail]
      rfl
    · intro j hj1 hj2
      have hsj : s[j]? = (phToken u)[j - p]? := by
        have := occursAtB_getElem hocc (j - p) (by omega)
        rw [show p + (j - p) = j by omega] at this
        exact this
      have hju : (phToken u)[j - p]? = u[j - p - phHead.length]? := by
        have h1 : (phToken u)[j - p]? = (u ++ phTail)[j - p - phHead.length]? := by
          show (phHead ++ (u ++ phTail))[j - p]? = _
          rw [List.getElem?_append_right (by omega)]
        rw [h1, List.getElem?_append, if_pos (by omega)]
      have hlt : j - p - phHead.length < u.length := by omega
      rw [List.getElem?_eq_getElem hlt] at hju
      obtain ⟨hc1, hc2⟩ := hyg (u[j - p - phHead.length]) (List.getElem_mem hlt)
      have hsj2 : s[j]? = some (u[j - p - phHead.length]) := by
        rw [hsj, hju]
      have hnt : occursAtB phTail s j = false := by
        by_contra hb
        rw [Bool.not_eq_false] at hb
        have := occursAtB_getElem hb 0 htl
        rw [Nat.add_zero, hsj2] at this
        have hph0 : phTail[0]? = some ']' := by decide
        rw [hph0] at this
        exact hc1 (Option.some.inj this)
      have hnn : decide (s[j]? = some '\n') = false := by
        apply decide_eq_false
        rw [hsj2]
        intro hcon
        exact hc2 (Option.some.inj hcon)
      rw [hnt, hnn]
      rfl
  refine ⟨hhead, ?_⟩
  unfold phMatchEnd phScanEnd
  rw [hfind]
  show (if occursAtB phTail s (p + (phHead.length + u.length)) = true
        then some (p + (phHead.length + u.length) + phTail.length)
        else none) = some (p + (phToken u).length)
  rw [if_pos htail]
  exact congrArg some (by omega)

theorem pyStripEmpty_false_of_bracket {s : Str} (h : '[' ∈ s) :
    pyStripEmpty s = false := by
  unfold pyStripEmpty
  by_contra hb
  rw [Bool.not_eq_false, List.all_eq_true] at hb
  exact absurd (hb '[' h) (by decide)

theorem phToken_ne {a b : Str} (h : a ≠ b) : phToken a ≠ phToken b := by
  intro he
  apply h
  unfold phToken at he
  have h1 := List.append_cancel_right he
  exact List.append_cancel_left h1

/-- The middle factor of a three-part append as a slice. -/
theorem slice_at (u v w : Str) :
    extractSlice (u ++ (v ++ w)) u.length (u.length + v.length) = v := by
  rw [extractSlice_eq_drop_take, List.drop_left, List.take_left]

theorem runPass_zero {bp : BlockPat}
    {repl : Nat → List (Str × LumiContent) → Str →
      Str × List (Str × LumiContent) × Nat}
    {t : Str} {mp : List (Str × LumiContent)} {ctr : Nat}
    (h : bpStep bp t 0 = none) : runPass bp repl (t, mp, ctr) = (t, mp, ctr) := by
  unfold runPass
  show gsubGo bp repl t (t.length + 1) 0 ctr mp = (t, mp, ctr)
  rw [gsubGo_none h, List.drop_zero]

theorem runPass_one {bp : BlockPat}
    {repl : Nat → List (Str × LumiContent) → Str →
      Str × List (Str × LumiContent) × Nat}
    {t : Str} {mp : List (Str × LumiContent)} {ctr : Nat} {i e : Nat}
    (hs : bpStep bp t 0 = some (i, e))
    (hrest : bpStep bp t e = none) :
    runPass bp repl (t, mp, ctr) =
      (extractSlice t 0 i ++
        (repl ctr mp (bpBody bp t i e)).1 ++ t.drop e,
       (repl ctr mp (bpBody bp t i e)).2.1,
       (repl ctr mp (bpBody bp t i e)).2.2) := by
  unfold runPass
  show gsubGo bp repl t (t.length + 1) 0 ctr mp = _
  rw [gsubGo_some hs, gsubGo_none hrest]

/-- The head delimiter of a marker written in context occurs at the
context length. -/
theorem occursAtB_head_at {bp : BlockPat} {b : Str} (u w : Str) :
    occursAtB bp.bphead (u ++ (pairMarker bp b ++ w)) u.length = true := by
  have h1 : occursAtB ((bp.bphead ++ b) ++ bp.bptail)
      (u ++ (pairMarker bp b ++ w)) u.length = true :=
    occursAtB_here u (pairMarker bp b) w
  exact occursAtB_append_left (occursAtB_append_left h1)

theorem pairMarker_length (bp : BlockPat) (b : Str) :
    (pairMarker bp b).length =
      bp.bphead.length + b.length + bp.bptail.length := by
  simp only [pairMarker, List.length_append]

theorem phToken_length (u : Str) :
    (phToken u).length = phHead.length + u.length + phTail.length := by
  simp only [phToken, List.length_append]

theorem slice_from_zero (s : Str) (k : Nat) : extractSlice s 0 k = s.take k := by
  unfold extractSlice
  exact List.drop_zero _

/-- Emission of one inter-match segment by the block-parser loop. -/
theorem ifSliceTextBlocks (defs : List TagDef) (seg : Str → List Str)
    (tagName : String) {t u : Str} {a b : Nat}
    (hs : extractSlice t a b = u) (hb : b = a + u.length) :
    (if a < b then textBlocks defs seg tagName (extractSlice t a b)
     else []) = textBlocks defs seg tagName u := by
  by_cases h : a < b
  · rw [if_pos h, hs]
  · rw [if_neg h]
    have hu : u = [] := List.eq_nil_of_length_eq_zero (by omega)
    rw [hu, textBlocks_nil]

/-- Emission of the trailing segment by the block-parser loop. -/
theorem ifDropTextBlocks (defs : List TagDef) (seg : Str → List Str)
    (tagName : String) {t u : Str} {b : Nat}
    (hs : t.drop b = u) (hb : t.length = b + u.length) :
    (if b < t.length then textBlocks defs seg tagName (t.drop b)
     else []) = textBlocks defs seg tagName u := by
  by_cases h : b < t.length
  · rw [if_pos h, hs]
  · rw [if_neg h]
    have hu : u = [] := List.eq_nil_of_length_eq_zero (by omega)
    rw [hu, textBlocks_nil]

theorem bpFinditer_nil {bp : BlockPat} {s : Str} {pos : Nat}
    (h : bpStep bp s pos = none) :
    ∀ fuel, bpFinditer bp s fuel pos = [] := by
  intro fuel
  cases fuel with
  | zero => rfl
  | succ f => rw [bpFinditer, h]

theorem pyFinditer_nil {s : Str} {pos : Nat} (h : pyStep s pos = none) :
    ∀ fuel, pyFinditerPH s fuel pos = [] := by
  intro fuel
  cases fuel with
  | zero => rfl
  | succ f => rw [pyFinditerPH, h]

/-- The round-trip scenario input: a text run containing one bare image
marker and one literal-HTML figure marker. -/
def c4raw (imgP htmlP : BlockPat) (seg0 seg1 seg2 path hbody : Str) : Str :=
  seg0 ++ pairMarker imgP path ++ seg1 ++ pairMarker htmlP hbody ++ seg2

/-- The round-trip scenario text after the literal-HTML figure pass. -/
def c4mid (imgP : BlockPat) (ids : Nat → Str)
    (seg0 seg1 seg2 path : Str) (ctr : Nat) : Str :=
  seg0 ++ pairMarker imgP path ++ seg1 ++ phToken (ids ctr) ++ seg2

/-- The round-trip scenario text after all three passes. -/
def c4fin (ids : Nat → Str) (seg0 seg1 seg2 : Str) (ctr : Nat) : Str :=
  seg0 ++ phToken (ids (ctr + 1)) ++ seg1 ++ phToken (ids ctr) ++ seg2

/-- The ordering scenario input: a multi-image figure container whose body
contains a bare image marker. -/
def c4figraw (figP imgP : BlockPat) (s0 s1 fb0 fb1 path2 : Str) : Str :=
  s0 ++ pairMarker figP (fb0 ++ pairMarker imgP path2 ++ fb1) ++ s1

/-- The three passes of `preprocess_and_replace_figures` on the round-trip
scenario input: the figure pass matches nothing, the literal-HTML pass
replaces the HTML figure marker, the image pass replaces the bare image
marker; two side-table entries and two fresh ids are produced. -/
theorem c4pass_roundtrip (figP htmlP imgP : BlockPat) (defs : List TagDef)
    (seg : Str → List Str) (ids : Nat → Str) (file_id : Str)
    (seg0 seg1 seg2 path hbody : Str) (ctr : Nat)
    (hfig : ∀ j ≤ (c4raw imgP htmlP seg0 seg1 seg2 path hbody).length,
      bpPred figP (c4raw imgP htmlP seg0 seg1 seg2 path hbody) j = false)
    (hhend : bpMatchEnd htmlP (c4raw imgP htmlP seg0 seg1 seg2 path hbody)
        (seg0 ++ pairMarker imgP path ++ seg1).length =
      some ((seg0 ++ pairMarker imgP path ++ seg1).length +
        (pairMarker htmlP hbody).length))
    (hhmin : ∀ j < (seg0 ++ pairMarker imgP path ++ seg1).length,
      bpPred htmlP (c4raw imgP htmlP seg0 seg1 seg2 path hbody) j = false)
    (hhafter : ∀ j ≤ (c4raw imgP htmlP seg0 seg1 seg2 path hbody).length,
      (seg0 ++ pairMarker imgP path ++ seg1).length +
          (pairMarker htmlP hbody).length ≤ j →
      bpPred htmlP (c4raw imgP htmlP seg0 seg1 seg2 path hbody) j = false)
    (hiend : bpMatchEnd imgP (c4mid imgP ids seg0 seg1 seg2 path ctr)
        seg0.length = some (seg0.length + (pairMarker imgP path).length))
    (himin : ∀ j < seg0.length,
      bpPred imgP (c4mid imgP ids seg0 seg1 seg2 path ctr) j = false)
    (hiafter : ∀ j ≤ (c4mid imgP ids seg0 seg1 seg2 path ctr).length,
      seg0.length + (pairMarker imgP path).length ≤ j →
      bpPred imgP (c4mid imgP ids seg0 seg1 seg2 path ctr) j = false) :
    preprocess_and_replace_figures figP htmlP imgP defs seg ids file_id
        (c4raw imgP htmlP seg0 seg1 seg2 path hbody) ctr [] =
      (c4fin ids seg0 seg1 seg2 ctr,
       [(phToken (ids ctr),
         ⟨String.mk (ids ctr), none, none, none,
          some ⟨pyStrip hbody, none⟩, none⟩),
        (phToken (ids (ctr + 1)),
         ⟨String.mk (ids (ctr + 1)), none,
          some (_create_image_content defs seg file_id path []), none,
          none, none⟩)],
       ctr + 2) := by
  have hstep1 : bpStep figP (c4raw imgP htmlP seg0 seg1 seg2 path hbody) 0 =
      none := bpStep_eq_none (fun j _ hj => hfig j hj)
  have hsh1 : c4raw imgP htmlP seg0 seg1 seg2 path hbody =
      (seg0 ++ pairMarker imgP path ++ seg1) ++
        (pairMarker htmlP hbody ++ seg2) := by
    unfold c4raw
    simp [List.append_assoc]
  have hocc2 : occursAtB htmlP.bphead
      (c4raw imgP htmlP seg0 seg1 seg2 path hbody)
      (seg0 ++ pairMarker imgP path ++ seg1).length = true := by
    rw [hsh1]
    exact occursAtB_head_at (seg0 ++ pairMarker imgP path ++ seg1) seg2
  have hbound2 : (seg0 ++ pairMarker imgP path ++ seg1).length ≤
      (c4raw imgP htmlP seg0 seg1 seg2 path hbody).length := by
    rw [hsh1]
    simp only [List.length_append] <;> omega
  have hstep2 : bpStep htmlP (c4raw imgP htmlP seg0 seg1 seg2 path hbody) 0 =
      some ((seg0 ++ pairMarker imgP path ++ seg1).length,
        (seg0 ++ pairMarker imgP path ++ seg1).length +
          (pairMarker htmlP hbody).length) :=
    bpStep_eq_some (Nat.zero_le _) hbound2 hocc2 hhend
      (fun j _ hj => hhmin j hj)
  have hstep2x : bpStep htmlP (c4raw imgP htmlP seg0 seg1 seg2 path hbody)
      ((seg0 ++ pairMarker imgP path ++ seg1).length +
        (pairMarker htmlP hbody).length) = none :=
    bpStep_eq_none (fun j h1 h2 => hhafter j h2 h1)
  have hslice2 : extractSlice (c4raw imgP htmlP seg0 seg1 seg2 path hbody) 0
      (seg0 ++ pairMarker imgP path ++ seg1).length =
      seg0 ++ pairMarker imgP path ++ seg1 := by
    rw [slice_from_zero, hsh1, List.take_left]
  have hdrop2 : (c4raw imgP htmlP seg0 seg1 seg2 path hbody).drop
      ((seg0 ++ pairMarker imgP path ++ seg1).length +
        (pairMarker htmlP hbody).length) = seg2 := by
    rw [show (seg0 ++ pairMarker imgP path ++ seg1).length +
        (pairMarker htmlP hbody).length =
        ((seg0 ++ pairMarker imgP path ++ seg1) ++
          pairMarker htmlP hbody).length from by simp only [List.length_append] <;> omega]
    rw [show c4raw imgP htmlP seg0 seg1 seg2 path hbody =
        ((seg0 ++ pairMarker imgP path ++ seg1) ++ pairMarker htmlP hbody)
          ++ seg2 from by
      unfold c4raw
      simp [List.append_assoc]]
    exact List.drop_left _ _
  have hbody2 : bpBody htmlP (c4raw imgP htmlP seg0 seg1 seg2 path hbody)
      (seg0 ++ pairMarker imgP path ++ seg1).length
      ((seg0 ++ pairMarker imgP path ++ seg1).length +
        (pairMarker htmlP hbody).length) = hbody := by
    unfold bpBody
    rw [show (seg0 ++ pairMarker imgP path ++ seg1).length +
        (pairMarker htmlP hbody).length - htmlP.bptail.length =
        ((seg0 ++ pairMarker imgP path ++ seg1) ++ htmlP.bphead).length +
          hbody.length from by
      simp only [List.length_append, pairMarker_length] <;> omega]
    rw [show (seg0 ++ pairMarker imgP path ++ seg1).length +
        htmlP.bphead.length =
        ((seg0 ++ pairMarker imgP path ++ seg1) ++ htmlP.bphead).length
        from by simp only [List.length_append] <;> omega]
    rw [show c4raw imgP htmlP seg0 seg1 seg2 path hbody =
        ((seg0 ++ pairMarker imgP path ++ seg1) ++ htmlP.bphead) ++
          (hbody ++ (htmlP.bptail ++ seg2)) from by
      unfold c4raw pairMarker
      simp [List.append_assoc]]
    exact slice_at _ _ _
  have hp2 : runPass htmlP (html_figure_replacer defs seg ids file_id)
      (c4raw imgP htmlP seg0 seg1 seg2 path hbody, [], ctr) =
      (c4mid imgP ids seg0 seg1 seg2 path ctr,
       [(phToken (ids ctr),
         ⟨String.mk (ids ctr), none, none, none,
          some ⟨pyStrip hbody, none⟩, none⟩)], ctr + 1) := by
    rw [runPass_one hstep2 hstep2x, hbody2, hslice2, hdrop2]
    unfold c4mid
    simp [html_figure_replacer, _create_caption_span, List.append_assoc]
  have hshm : c4mid imgP ids seg0 seg1 seg2 path ctr =
      seg0 ++ (pairMarker imgP path ++
        (seg1 ++ phToken (ids ctr) ++ seg2)) := by
    unfold c4mid
    simp [List.append_assoc]
  have hocc3 : occursAtB imgP.bphead
      (c4mid imgP ids seg0 seg1 seg2 path ctr) seg0.length = true := by
    rw [hshm]
    exact occursAtB_head_at seg0 (seg1 ++ phToken (ids ctr) ++ seg2)
  have hbound3 : seg0.length ≤
      (c4mid imgP ids seg0 seg1 seg2 path ctr).length := by
    rw [hshm]
    simp only [List.length_append] <;> omega
  have hstep3 : bpStep imgP (c4mid imgP ids seg0 seg1 seg2 path ctr) 0 =
      some (seg0.length, seg0.length + (pairMarker imgP path).length) :=
    bpStep_eq_some (Nat.zero_le _) hbound3 hocc3 hiend
      (fun j _ hj => himin j hj)
  have hstep3x : bpStep imgP (c4mid imgP ids seg0 seg1 seg2 path ctr)
      (seg0.length + (pairMarker imgP path).length) = none :=
    bpStep_eq_none (fun j h1 h2 => hiafter j h2 h1)
  have hslice3 : extractSlice (c4mid imgP ids seg0 seg1 seg2 path ctr) 0
      seg0.length = seg0 := by
    rw [slice_from_zero, hshm, List.take_left]
  have hdrop3 : (c4mid imgP ids seg0 seg1 seg2 path ctr).drop
      (seg0.length + (pairMarker imgP path).length) =
      seg1 ++ phToken (ids ctr) ++ seg2 := by
    rw [show seg0.length + (pairMarker imgP path).length =
        (seg0 ++ pairMarker imgP path).length from by
      simp only [List.length_append] <;> omega]
    rw [show c4mid imgP ids seg0 seg1 seg2 path ctr =
        (seg0 ++ pairMarker imgP path) ++
          (seg1 ++ phToken (ids ctr) ++ seg2) from by
      unfold c4mid
      simp [List.append_assoc]]
    exact List.drop_left _ _
  have hbody3 : bpBody imgP (c4mid imgP ids seg0 seg1 seg2 path ctr)
      seg0.length (seg0.length + (pairMarker imgP path).length) = path := by
    unfold bpBody
    rw [show seg0.length + (pairMarker imgP path).length -
        imgP.bptail.length =
        (seg0 ++ imgP.bphead).length + path.length from by
      simp only [List.length_append, pairMarker_length] <;> omega]
    rw [show seg0.length + imgP.bphead.length =
        (seg0 ++ imgP.bphead).length from by simp only [List.length_append] <;> omega]
    rw [show c4mid imgP ids seg0 seg1 seg2 path ctr =
        (seg0 ++ imgP.bphead) ++
          (path ++ (imgP.bptail ++ (seg1 ++ phToken (ids ctr) ++ seg2)))
        from by
      unfold c4mid pairMarker
      simp [List.append_assoc]]
    exact slice_at _ _ _
  have hp3 : runPass imgP (image_replacer defs seg ids file_id)
      (c4mid imgP ids seg0 seg1 seg2 path ctr,
       [(phToken (ids ctr),
         ⟨String.mk (ids ctr), none, none, none,
          some ⟨pyStrip hbody, none⟩, none⟩)], ctr + 1) =
      (c4fin ids seg0 seg1 seg2 ctr,
       [(phToken (ids ctr),
         ⟨String.mk (ids ctr), none, none, none,
          some ⟨pyStrip hbody, none⟩, none⟩),
        (phToken (ids (ctr + 1)),
         ⟨String.mk (ids (ctr + 1)), none,
          some (_create_image_content defs seg file_id path []), none,
          none, none⟩)], ctr + 2) := by
    rw [runPass_one hstep3 hstep3x, hbody3, hslice3, hdrop3]
    unfold c4fin
    simp [image_replacer, List.append_assoc]
  unfold preprocess_and_replace_figures
  rw [runPass_zero hstep1, hp2, hp3]

/-- The three passes on the ordering scenario input: the figure pass runs
first and consumes the whole container — its body's bare image marker
becomes a sub-image of the `FigureContent` entry — so the later image pass
finds nothing and no top-level placeholder is created for the inner
marker. -/
theorem c4pass_ordering (figP htmlP imgP : BlockPat) (defs : List TagDef)
    (seg : Str → List Str) (ids : Nat → Str) (file_id : Str)
    (s0 s1 fb0 fb1 path2 : Str) (ctr2 : Nat)
    (hfend : bpMatchEnd figP (c4figraw figP imgP s0 s1 fb0 fb1 path2)
        s0.length =
      some (s0.length +
        (pairMarker figP (fb0 ++ pairMarker imgP path2 ++ fb1)).length))
    (hfmin : ∀ j < s0.length,
      bpPred figP (c4figraw figP imgP s0 s1 fb0 fb1 path2) j = false)
    (hfafter : ∀ j ≤ (c4figraw figP imgP s0 s1 fb0 fb1 path2).length,
      s0.length +
          (pairMarker figP (fb0 ++ pairMarker imgP path2 ++ fb1)).length ≤
        j →
      bpPred figP (c4figraw figP imgP s0 s1 fb0 fb1 path2) j = false)
    (hsend : bpMatchEnd imgP (fb0 ++ pairMarker imgP path2 ++ fb1)
        fb0.length = some (fb0.length + (pairMarker imgP path2).length))
    (hsmin : ∀ j < fb0.length,
      bpPred imgP (fb0 ++ pairMarker imgP path2 ++ fb1) j = false)
    (hsafter : ∀ j ≤ (fb0 ++ pairMarker imgP path2 ++ fb1).length,
      fb0.length + (pairMarker imgP path2).length ≤ j →
      bpPred imgP (fb0 ++ pairMarker imgP path2 ++ fb1) j = false)
    (hnoh : ∀ j ≤ (s0 ++ phToken (ids ctr2) ++ s1).length,
      bpPred htmlP (s0 ++ phToken (ids ctr2) ++ s1) j = false)
    (hnoi : ∀ j ≤ (s0 ++ phToken (ids ctr2) ++ s1).length,
      bpPred imgP (s0 ++ phToken (ids ctr2) ++ s1) j = false) :
    preprocess_and_replace_figures figP htmlP imgP defs seg ids file_id
        (c4figraw figP imgP s0 s1 fb0 fb1 path2) ctr2 [] =
      (s0 ++ phToken (ids ctr2) ++ s1,
       [(phToken (ids ctr2),
         ⟨String.mk (ids ctr2), none, none,
          some ⟨[_create_image_content defs seg file_id path2 []], none⟩,
          none, none⟩)],
       ctr2 + 1) := by
  have hoccS : occursAtB imgP.bphead (fb0 ++ pairMarker imgP path2 ++ fb1)
      fb0.length = true := by
    rw [show fb0 ++ pairMarker imgP path2 ++ fb1 =
        fb0 ++ (pairMarker imgP path2 ++ fb1) from by
      simp [List.append_assoc]]
    exact occursAtB_head_at fb0 fb1
  have hboundS : fb0.length ≤ (fb0 ++ pairMarker imgP path2 ++ fb1).length := by
    simp only [List.length_append] <;> omega
  have hstepS : bpStep imgP (fb0 ++ pairMarker imgP path2 ++ fb1) 0 =
      some (fb0.length, fb0.length + (pairMarker imgP path2).length) :=
    bpStep_eq_some (Nat.zero_le _) hboundS hoccS hsend
      (fun j _ hj => hsmin j hj)
  have hstepSx : bpStep imgP (fb0 ++ pairMarker imgP path2 ++ fb1)
      (fb0.length + (pairMarker imgP path2).length) = none :=
    bpStep_eq_none (fun j h1 h2 => hsafter j h2 h1)
  have hfindS : bpFinditer imgP (fb0 ++ pairMarker imgP path2 ++ fb1)
      ((fb0 ++ pairMarker imgP path2 ++ fb1).length + 1) 0 =
      [(fb0.length, fb0.length + (pairMarker imgP path2).length)] := by
    rw [bpFinditer_succ_some hstepS, bpFinditer_nil hstepSx]
  have hbodyS : bpBody imgP (fb0 ++ pairMarker imgP path2 ++ fb1)
      fb0.length (fb0.length + (pairMarker imgP path2).length) = path2 := by
    unfold bpBody
    rw [show fb0.length + (pairMarker imgP path2).length -
        imgP.bptail.length =
        (fb0 ++ imgP.bphead).length + path2.length from by
      simp only [List.length_append, pairMarker_length] <;> omega]
    rw [show fb0.length + imgP.bphead.length =
        (fb0 ++ imgP.bphead).length from by
      simp only [List.length_append] <;> omega]
    rw [show fb0 ++ pairMarker imgP path2 ++ fb1 =
        (fb0 ++ imgP.bphead) ++ (path2 ++ (imgP.bptail ++ fb1)) from by
      unfold pairMarker
      simp [List.append_assoc]]
    exact slice_at _ _ _
  have hoccF : occursAtB figP.bphead (c4figraw figP imgP s0 s1 fb0 fb1 path2)
      s0.length = true := by
    rw [show c4figraw figP imgP s0 s1 fb0 fb1 path2 =
        s0 ++ (pairMarker figP (fb0 ++ pairMarker imgP path2 ++ fb1) ++ s1)
        from by
      unfold c4figraw
      simp [List.append_assoc]]
    exact occursAtB_head_at s0 s1
  have hboundF : s0.length ≤ (c4figraw figP imgP s0 s1 fb0 fb1 path2).length := by
    unfold c4figraw
    simp only [List.length_append] <;> omega
  have hstepF : bpStep figP (c4figraw figP imgP s0 s1 fb0 fb1 path2) 0 =
      some (s0.length, s0.length +
        (pairMarker figP (fb0 ++ pairMarker imgP path2 ++ fb1)).length) :=
    bpStep_eq_some (Nat.zero_le _) hboundF hoccF hfend
      (fun j _ hj => hfmin j hj)
  have hstepFx : bpStep figP (c4figraw figP imgP s0 s1 fb0 fb1 path2)
      (s0.length +
        (pairMarker figP (fb0 ++ pairMarker imgP path2 ++ fb1)).length) =
      none := bpStep_eq_none (fun j h1 h2 => hfafter j h2 h1)
  have hsliceF : extractSlice (c4figraw figP imgP s0 s1 fb0 fb1 path2) 0
      s0.length = s0 := by
    rw [slice_from_zero]
    rw [show c4figraw figP imgP s0 s1 fb0 fb1 path2 =
        s0 ++ (pairMarker figP (fb0 ++ pairMarker imgP path2 ++ fb1) ++ s1)
        from by
      unfold c4figraw
      simp [List.append_assoc]]
    exact List.take_left _ _
  have hdropF : (c4figraw figP imgP s0 s1 fb0 fb1 path2).drop
      (s0.length +
        (pairMarker figP (fb0 ++ pairMarker imgP path2 ++ fb1)).length) =
      s1 := by
    rw [show s0.length +
        (pairMarker figP (fb0 ++ pairMarker imgP path2 ++ fb1)).length =
        (s0 ++ pairMarker figP (fb0 ++ pairMarker imgP path2 ++ fb1)).length
        from by simp only [List.length_append] <;> omega]
    rw [show c4figraw figP imgP s0 s1 fb0 fb1 path2 =
        (s0 ++ pairMarker figP (fb0 ++ pairMarker imgP path2 ++ fb1)) ++ s1
        from by
      unfold c4figraw
      simp [List.append_assoc]]
    exact List.drop_left _ _
  have hbodyF : bpBody figP (c4figraw figP imgP s0 s1 fb0 fb1 path2)
      s0.length
      (s0.length +
        (pairMarker figP (fb0 ++ pairMarker imgP path2 ++ fb1)).length) =
      fb0 ++ pairMarker imgP path2 ++ fb1 := by
    unfold bpBody
    rw [show s0.length +
        (pairMarker figP (fb0 ++ pairMarker imgP path2 ++ fb1)).length -
        figP.bptail.length =
        (s0 ++ figP.bphead).length +
          (fb0 ++ pairMarker imgP path2 ++ fb1).length from by
      simp only [List.length_append, pairMarker_length] <;> omega]
    rw [show s0.length + figP.bphead.length =
        (s0 ++ figP.bphead).length from by
      simp only [List.length_append] <;> omega]
    rw [show c4figraw figP imgP s0 s1 fb0 fb1 path2 =
        (s0 ++ figP.bphead) ++
          ((fb0 ++ pairMarker imgP path2 ++ fb1) ++ (figP.bptail ++ s1))
        from by
      unfold c4figraw pairMarker
      simp [List.append_assoc]]
    exact slice_at _ _ _
  have hpF : runPass figP (figure_replacer defs seg imgP ids file_id)
      (c4figraw figP imgP s0 s1 fb0 fb1 path2, [], ctr2) =
      (s0 ++ phToken (ids ctr2) ++ s1,
       [(phToken (ids ctr2),
         ⟨String.mk (ids ctr2), none, none,
          some ⟨[_create_image_content defs seg file_id path2 []], none⟩,
          none, none⟩)], ctr2 + 1) := by
    rw [runPass_one hstepF hstepFx, hbodyF, hsliceF, hdropF]
    simp only [figure_replacer]
    rw [hfindS]
    have hbodyS2 : bpBody imgP (fb0 ++ (pairMarker imgP path2 ++ fb1))
        fb0.length (fb0.length + (pairMarker imgP path2).length) = path2 := by
      rw [← List.append_assoc]
      exact hbodyS
    simp [_create_caption_span, hbodyS, hbodyS2, List.append_assoc]
  have hstepH : bpStep htmlP (s0 ++ phToken (ids ctr2) ++ s1) 0 = none :=
    bpStep_eq_none (fun j _ hj => hnoh j hj)
  have hstepI : bpStep imgP (s0 ++ phToken (ids ctr2) ++ s1) 0 = none :=
    bpStep_eq_none (fun j _ hj => hnoi j hj)
  unfold preprocess_and_replace_figures
  rw [hpF, runPass_zero hstepH, runPass_zero hstepI]

/-- Reassembly of the round-trip scenario text by
`_parse_html_block_for_lumi_contents`: the two tokens are recognised, their
side-table entries are spliced between the text blocks of the three
original segments, in left-to-right order. -/
theorem c4parse_roundtrip (defs : List TagDef) (seg : Str → List Str)
    (ids : Nat → Str) (tagName : String)
    (seg0 seg1 seg2 : Str) (ctr : Nat) (X Y : LumiContent)
    (hids : ∀ n, ∀ c ∈ ids n, c ≠ ']' ∧ c ≠ '\n')
    (hne : ids ctr ≠ ids (ctr + 1))
    (hph : ∀ j ≤ (c4fin ids seg0 seg1 seg2 ctr).length,
      occursAtB phHead (c4fin ids seg0 seg1 seg2 ctr) j = true →
      j = seg0.length ∨
        j = seg0.length + (phToken (ids (ctr + 1))).length + seg1.length) :
    _parse_html_block_for_lumi_contents defs seg
        (c4fin ids seg0 seg1 seg2 ctr) tagName
        [(phToken (ids ctr), X), (phToken (ids (ctr + 1)), Y)] =
      textBlocks defs seg tagName seg0 ++ [Y] ++
        textBlocks defs seg tagName seg1 ++ [X] ++
        textBlocks defs seg tagName seg2 := by
  have hhd : 0 < phHead.length := by decide
  have hshape1 : c4fin ids seg0 seg1 seg2 ctr =
      seg0 ++ (phToken (ids (ctr + 1)) ++
        (seg1 ++ phToken (ids ctr) ++ seg2)) := by
    unfold c4fin
    simp [List.append_assoc]
  have hshape2 : c4fin ids seg0 seg1 seg2 ctr =
      (seg0 ++ phToken (ids (ctr + 1)) ++ seg1) ++
        (phToken (ids ctr) ++ seg2) := by
    unfold c4fin
    simp [List.append_assoc]
  have hocc2 : occursAtB (phToken (ids (ctr + 1)))
      (c4fin ids seg0 seg1 seg2 ctr) seg0.length = true := by
    rw [hshape1]
    exact occursAtB_here _ _ _
  have hocc1 : occursAtB (phToken (ids ctr))
      (c4fin ids seg0 seg1 seg2 ctr)
      (seg0.length + (phToken (ids (ctr + 1))).length + seg1.length) =
      true := by
    have h := occursAtB_here (seg0 ++ phToken (ids (ctr + 1)) ++ seg1)
      (phToken (ids ctr)) seg2
    rw [← hshape2] at h
    rw [show seg0.length + (phToken (ids (ctr + 1))).length + seg1.length =
      (seg0 ++ phToken (ids (ctr + 1)) ++ seg1).length from by
      simp only [List.length_append] <;> omega]
    exact h
  obtain ⟨hhead2, hend2⟩ := token_scan hocc2 (hids (ctr + 1))
  obtain ⟨hhead1, hend1⟩ := token_scan hocc1 (hids ctr)
  obtain ⟨hb2, _⟩ := occursAtB_iff.mp hocc2
  obtain ⟨hb1, _⟩ := occursAtB_iff.mp hocc1
  have htok2pos : 0 < (phToken (ids (ctr + 1))).length := by
    rw [phToken_length]
    omega
  have htok1pos : 0 < (phToken (ids ctr)).length := by
    rw [phToken_length]
    omega
  have hphx : ∀ j, occursAtB phHead (c4fin ids seg0 seg1 seg2 ctr) j = true →
      j = seg0.length ∨
        j = seg0.length + (phToken (ids (ctr + 1))).length + seg1.length := by
    intro j hj
    obtain ⟨hjb, _⟩ := occursAtB_iff.mp hj
    exact hph j (by omega) hj
  have hpy1 : pyStep (c4fin ids seg0 seg1 seg2 ctr) 0 =
      some (seg0.length, seg0.length + (phToken (ids (ctr + 1))).length) :=
    pyStep_eq_some (Nat.zero_le _) (by omega) hhead2
      (by rw [hend2])
      (by
        intro j _ hj
        cases hcb : occursAtB phHead (c4fin ids seg0 seg1 seg2 ctr) j with
        | false => rfl
        | true =>
          exfalso
          rcases hphx j hcb with h | h <;> omega)
  have hpy2 : pyStep (c4fin ids seg0 seg1 seg2 ctr)
      (seg0.length + (phToken (ids (ctr + 1))).length) =
      some (seg0.length + (phToken (ids (ctr + 1))).length + seg1.length,
        seg0.length + (phToken (ids (ctr + 1))).length + seg1.length +
          (phToken (ids ctr)).length) :=
    pyStep_eq_some (by omega) (by omega) hhead1
      (by rw [hend1])
      (by
        intro j hjl hj
        cases hcb : occursAtB phHead (c4fin ids seg0 seg1 seg2 ctr) j with
        | false => rfl
        | true =>
          exfalso
          rcases hphx j hcb with h | h <;> omega)
  have hpy3 : pyStep (c4fin ids seg0 seg1 seg2 ctr)
      (seg0.length + (phToken (ids (ctr + 1))).length + seg1.length +
        (phToken (ids ctr)).length) = none :=
    pyStep_eq_none (by
      intro j hjl _
      cases hcb : occursAtB phHead (c4fin ids seg0 seg1 seg2 ctr) j with
      | false => rfl
      | true =>
        exfalso
        rcases hphx j hcb with h | h <;> omega)
  have hlen1 : 1 ≤ (c4fin ids seg0 seg1 seg2 ctr).length := by omega
  have hmatches : placeholderMatches (c4fin ids seg0 seg1 seg2 ctr) =
      [(seg0.length, seg0.length + (phToken (ids (ctr + 1))).length),
       (seg0.length + (phToken (ids (ctr + 1))).length + seg1.length,
        seg0.length + (phToken (ids (ctr + 1))).length + seg1.length +
          (phToken (ids ctr)).length)] := by
    unfold placeholderMatches
    rw [pyFinditerPH_succ_some hpy1]
    rw [show (c4fin ids seg0 seg1 seg2 ctr).length =
      ((c4fin ids seg0 seg1 seg2 ctr).length - 1) + 1 from by omega]
    rw [pyFinditerPH_succ_some hpy2, pyFinditer_nil hpy3]
  have hbr : '[' ∈ phToken (ids (ctr + 1)) := by
    unfold phToken
    exact List.mem_append.mpr (Or.inl (List.mem_append.mpr
      (Or.inl (by decide))))
  have hbrf : '[' ∈ c4fin ids seg0 seg1 seg2 ctr := by
    unfold c4fin
    rw [List.mem_append, List.mem_append, List.mem_append, List.mem_append]
    exact Or.inl (Or.inl (Or.inl (Or.inr hbr)))
  have hempty := pyStripEmpty_false_of_bracket hbrf
  have hsl0 : extractSlice (c4fin ids seg0 seg1 seg2 ctr) 0 seg0.length =
      seg0 := by
    rw [slice_from_zero, hshape1]
    exact List.take_left _ _
  have hsl2 : extractSlice (c4fin ids seg0 seg1 seg2 ctr) seg0.length
      (seg0.length + (phToken (ids (ctr + 1))).length) =
      phToken (ids (ctr + 1)) := by
    rw [hshape1]
    exact slice_at _ _ _
  have hsl1seg : extractSlice (c4fin ids seg0 seg1 seg2 ctr)
      (seg0.length + (phToken (ids (ctr + 1))).length)
      (seg0.length + (phToken (ids (ctr + 1))).length + seg1.length) =
      seg1 := by
    rw [show seg0.length + (phToken (ids (ctr + 1))).length =
      (seg0 ++ phToken (ids (ctr + 1))).length from by
      simp only [List.length_append] <;> omega]
    rw [show c4fin ids seg0 seg1 seg2 ctr =
      (seg0 ++ phToken (ids (ctr + 1))) ++
        (seg1 ++ (phToken (ids ctr) ++ seg2)) from by
      unfold c4fin
      simp [List.append_assoc]]
    exact slice_at _ _ _
  have hsl1tok : extractSlice (c4fin ids seg0 seg1 seg2 ctr)
      (seg0.length + (phToken (ids (ctr + 1))).length + seg1.length)
      (seg0.length + (phToken (ids (ctr + 1))).length + seg1.length +
        (phToken (ids ctr)).length) = phToken (ids ctr) := by
    rw [show seg0.length + (phToken (ids (ctr + 1))).length + seg1.length =
      (seg0 ++ phToken (ids (ctr + 1)) ++ seg1).length from by
      simp only [List.length_append] <;> omega]
    rw [hshape2]
    exact slice_at _ _ _
  have hdropend : (c4fin ids seg0 seg1 seg2 ctr).drop
      (seg0.length + (phToken (ids (ctr + 1))).length + seg1.length +
        (phToken (ids ctr)).length) = seg2 := by
    rw [show seg0.length + (phToken (ids (ctr + 1))).length + seg1.length +
        (phToken (ids ctr)).length =
      (seg0 ++ phToken (ids (ctr + 1)) ++ seg1 ++ phToken (ids ctr)).length
      from by simp only [List.length_append] <;> omega]
    rw [show c4fin ids seg0 seg1 seg2 ctr =
      (seg0 ++ phToken (ids (ctr + 1)) ++ seg1 ++ phToken (ids ctr)) ++ seg2
      from by
      unfold c4fin
      simp [List.append_assoc]]
    exact List.drop_left _ _
  have hlenfin : (c4fin ids seg0 seg1 seg2 ctr).length =
      seg0.length + (phToken (ids (ctr + 1))).length + seg1.length +
        (phToken (ids ctr)).length + seg2.length := by
    unfold c4fin
    simp only [List.length_append] <;> omega
  have hlook2 : lookupPH
      [(phToken (ids ctr), X), (phToken (ids (ctr + 1)), Y)]
      (phToken (ids (ctr + 1))) = some Y := by
    rw [lookupPH, if_neg (phToken_ne hne), lookupPH, if_pos rfl]
  have hlook1 : lookupPH
      [(phToken (ids ctr), X), (phToken (ids (ctr + 1)), Y)]
      (phToken (ids ctr)) = some X := by
    rw [lookupPH, if_pos rfl]
  unfold _parse_html_block_for_lumi_contents
  rw [hempty]
  simp only [Bool.false_eq_true, if_false]
  rw [hmatches]
  rw [parseBlockGo]
  rw [ifSliceTextBlocks defs seg tagName hsl0 (by omega)]
  rw [hsl2, hlook2]
  rw [parseBlockGo]
  rw [ifSliceTextBlocks defs seg tagName hsl1seg (by omega)]
  rw [hsl1tok, hlook1]
  rw [parseBlockGo]
  rw [ifDropTextBlocks defs seg tagName hdropend (by omega)]
  simp [List.append_assoc]

/-- Claim C4: placeholder substitution round-trips.
`preprocess_and_replace_figures` replaces multi-image figure containers and
literal-HTML figure containers before bare image+caption markers, and for a
text run containing such markers the reassembly by
`_parse_html_block_for_lumi_contents` yields the typed content blocks
interleaved with the surrounding text in the original left-to-right order,
with no placeholder token remaining in any produced `TextContent`.
Formalised on the two scenario families (with the match-position hygiene
hypotheses making each pattern match exactly at its written marker):
(1) the pass pipeline on a run with one bare image marker and one
literal-HTML figure marker produces the token-substituted text, the two
typed side-table entries and two consumed ids; (2) the block parser
reassembles that text into the segments' text blocks with the
`ImageContent` and `HtmlFigureContent` entries spliced in document order;
(3) every produced block is a text block of one of the three marker-free
original segments (so no token characters reach a `TextContent`) or one of
the two typed entries; (4) on a figure container whose body holds a bare
image marker, the figure pass (run first) consumes the whole container —
the inner marker becomes a sub-image of the `FigureContent` entry and no
top-level placeholder or side-table entry is created for it. -/
theorem c4_figure_placeholder_roundtrip (figP htmlP imgP : BlockPat)
    (defs : List TagDef) (seg : Str → List Str) (ids : Nat → Str)
    (file_id : Str) (tagName : String)
    (seg0 seg1 seg2 path hbody : Str) (ctr : Nat)
    (s0 s1 fb0 fb1 path2 : Str) (ctr2 : Nat)
    (hids : ∀ n, ∀ c ∈ ids n, c ≠ ']' ∧ c ≠ '\n')
    (hne : ids ctr ≠ ids (ctr + 1))
    (hfig : ∀ j ≤ (c4raw imgP htmlP seg0 seg1 seg2 path hbody).length,
      bpPred figP (c4raw imgP htmlP seg0 seg1 seg2 path hbody) j = false)
    (hhend : bpMatchEnd htmlP (c4raw imgP htmlP seg0 seg1 seg2 path hbody)
        (seg0 ++ pairMarker imgP path ++ seg1).length =
      some ((seg0 ++ pairMarker imgP path ++ seg1).length +
        (pairMarker htmlP hbody).length))
    (hhmin : ∀ j < (seg0 ++ pairMarker imgP path ++ seg1).length,
      bpPred htmlP (c4raw imgP htmlP seg0 seg1 seg2 path hbody) j = false)
    (hhafter : ∀ j ≤ (c4raw imgP htmlP seg0 seg1 seg2 path hbody).length,
      (seg0 ++ pairMarker imgP path ++ seg1).length +
          (pairMarker htmlP hbody).length ≤ j →
      bpPred htmlP (c4raw imgP htmlP seg0 seg1 seg2 path hbody) j = false)
    (hiend : bpMatchEnd imgP (c4mid imgP ids seg0 seg1 seg2 path ctr)
        seg0.length = some (seg0.length + (pairMarker imgP path).length))
    (himin : ∀ j < seg0.length,
      bpPred imgP (c4mid imgP ids seg0 seg1 seg2 path ctr) j = false)
    (hiafter : ∀ j ≤ (c4mid imgP ids seg0 seg1 seg2 path ctr).length,
      seg0.length + (pairMarker imgP path).length ≤ j →
      bpPred imgP (c4mid imgP ids seg0 seg1 seg2 path ctr) j = false)
    (hph : ∀ j ≤ (c4fin ids seg0 seg1 seg2 ctr).length,
      occursAtB phHead (c4fin ids seg0 seg1 seg2 ctr) j = true →
      j = seg0.length ∨
        j = seg0.length + (phToken (ids (ctr + 1))).length + seg1.length)
    (hfend : bpMatchEnd figP (c4figraw figP imgP s0 s1 fb0 fb1 path2)
        s0.length =
      some (s0.length +
        (pairMarker figP (fb0 ++ pairMarker imgP path2 ++ fb1)).length))
    (hfmin : ∀ j < s0.length,
      bpPred figP (c4figraw figP imgP s0 s1 fb0 fb1 path2) j = false)
    (hfafter : ∀ j ≤ (c4figraw figP imgP s0 s1 fb0 fb1 path2).length,
      s0.length +
          (pairMarker figP (fb0 ++ pairMarker imgP path2 ++ fb1)).length ≤
        j →
      bpPred figP (c4figraw figP imgP s0 s1 fb0 fb1 path2) j = false)
    (hsend : bpMatchEnd imgP (fb0 ++ pairMarker imgP path2 ++ fb1)
        fb0.length = some (fb0.length + (pairMarker imgP path2).length))
    (hsmin : ∀ j < fb0.length,
      bpPred imgP (fb0 ++ pairMarker imgP path2 ++ fb1) j = false)
    (hsafter : ∀ j ≤ (fb0 ++ pairMarker imgP path2 ++ fb1).length,
      fb0.length + (pairMarker imgP path2).length ≤ j →
      bpPred imgP (fb0 ++ pairMarker imgP path2 ++ fb1) j = false)
    (hnoh : ∀ j ≤ (s0 ++ phToken (ids ctr2) ++ s1).length,
      bpPred htmlP (s0 ++ phToken (ids ctr2) ++ s1) j = false)
    (hnoi : ∀ j ≤ (s0 ++ phToken (ids ctr2) ++ s1).length,
      bpPred imgP (s0 ++ phToken (ids ctr2) ++ s1) j = false) :
    preprocess_and_replace_figures figP htmlP imgP defs seg ids file_id
        (c4raw imgP htmlP seg0 seg1 seg2 path hbody) ctr [] =
      (c4fin ids seg0 seg1 seg2 ctr,
       [(phToken (ids ctr),
         ⟨String.mk (ids ctr), none, none, none,
          some ⟨pyStrip hbody, none⟩, none⟩),
        (phToken (ids (ctr + 1)),
         ⟨String.mk (ids (ctr + 1)), none,
          some (_create_image_content defs seg file_id path []), none,
          none, none⟩)],
       ctr + 2) ∧
    _parse_html_block_for_lumi_contents defs seg
        (c4fin ids seg0 seg1 seg2 ctr) tagName
        [(phToken (ids ctr),
          ⟨String.mk (ids ctr), none, none, none,
           some ⟨pyStrip hbody, none⟩, none⟩),
         (phToken (ids (ctr + 1)),
          ⟨String.mk (ids (ctr + 1)), none,
           some (_create_image_content defs seg file_id path []), none,
           none, none⟩)] =
      textBlocks defs seg tagName seg0 ++
        [⟨String.mk (ids (ctr + 1)), none,
          some (_create_image_content defs seg file_id path []), none,
          none, none⟩] ++
        textBlocks defs seg tagName seg1 ++
        [⟨String.mk (ids ctr), none, none, none,
          some ⟨pyStrip hbody, none⟩, none⟩] ++
        textBlocks defs seg tagName seg2 ∧
    (∀ c ∈ _parse_html_block_for_lumi_contents defs seg
        (c4fin ids seg0 seg1 seg2 ctr) tagName
        [(phToken (ids ctr),
          ⟨String.mk (ids ctr), none, none, none,
           some ⟨pyStrip hbody, none⟩, none⟩),
         (phToken (ids (ctr + 1)),
          ⟨String.mk (ids (ctr + 1)), none,
           some (_create_image_content defs seg file_id path []), none,
           none, none⟩)],
      c ∈ textBlocks defs seg tagName seg0 ∨
      c = ⟨String.mk (ids (ctr + 1)), none,
        some (_create_image_content defs seg file_id path []), none,
        none, none⟩ ∨
      c ∈ textBlocks defs seg tagName seg1 ∨
      c = ⟨String.mk (ids ctr), none, none, none,
        some ⟨pyStrip hbody, none⟩, none⟩ ∨
      c ∈ textBlocks defs seg tagName seg2) ∧
    preprocess_and_replace_figures figP htmlP imgP defs seg ids file_id
        (c4figraw figP imgP s0 s1 fb0 fb1 path2) ctr2 [] =
      (s0 ++ phToken (ids ctr2) ++ s1,
       [(phToken (ids ctr2),
         ⟨String.mk (ids ctr2), none, none,
          some ⟨[_create_image_content defs seg file_id path2 []], none⟩,
          none, none⟩)],
       ctr2 + 1) := by
  have hparse := c4parse_roundtrip defs seg ids tagName seg0 seg1 seg2 ctr
    (⟨String.mk (ids ctr), none, none, none,
      some ⟨pyStrip hbody, none⟩, none⟩)
    (⟨String.mk (ids (ctr + 1)), none,
      some (_create_image_content defs seg file_id path []), none,
      none, none⟩)
    hids hne hph
  refine ⟨c4pass_roundtrip figP htmlP imgP defs seg ids file_id
      seg0 seg1 seg2 path hbody ctr
      hfig hhend hhmin hhafter hiend himin hiafter,
    hparse, ?_,
    c4pass_ordering figP htmlP imgP defs seg ids file_id
      s0 s1 fb0 fb1 path2 ctr2
      hfend hfmin hfafter hsend hsmin hsafter hnoh hnoi⟩
  intro c hc
  rw [hparse] at hc
  rcases List.mem_append.mp hc with hc | hc
  · rcases List.mem_append.mp hc with hc | hc
    · rcases List.mem_append.mp hc with hc | hc
      · rcases List.mem_append.mp hc with hc | hc
        · exact Or.inl hc
        · exact Or.inr (Or.inl (List.mem_singleton.mp hc))
      · exact Or.inr (Or.inr (Or.inl hc))
    · exact Or.inr (Or.inr (Or.inr (Or.inl (List.mem_singleton.mp hc))))
  · exact Or.inr (Or.inr (Or.inr (Or.inr hc)))

/-- Demo multi-image figure container pattern for the C4 witness. -/
def c4figPDemo : BlockPat := ⟨("(F:").toList, (":F)").toList⟩

/-- Demo literal-HTML figure container pattern for the C4 witness. -/
def c4htmlPDemo : BlockPat := ⟨("(H:").toList, (":H)").toList⟩

/-- Demo bare image+caption pattern for the C4 witness. -/
def c4imgPDemo : BlockPat := ⟨("(I:").toList, (":I)").toList⟩

/-- Demo injectable unique-id source for the C4 witness. -/
def c4idsDemo : Nat → Str := fun n => List.replicate (n + 1) 'x'

/-- Witness for C4 at concrete inputs. -/
theorem c4_witness :
    c4idsDemo 0 ≠ c4idsDemo (0 + 1) ∧
    _parse_html_block_for_lumi_contents demoDefs (fun s => [s])
        (c4fin c4idsDemo ("a").toList ("b").toList ("c").toList 0) "p"
        [(phToken (c4idsDemo 0),
          ⟨String.mk (c4idsDemo 0), none, none, none,
           some ⟨pyStrip ("h").toList, none⟩, none⟩),
         (phToken (c4idsDemo (0 + 1)),
          ⟨String.mk (c4idsDemo (0 + 1)), none,
           some (_create_image_content demoDefs (fun s => [s]) ("f").toList
             ("p").toList []), none, none, none⟩)] =
      textBlocks demoDefs (fun s => [s]) "p" ("a").toList ++
        [⟨String.mk (c4idsDemo (0 + 1)), none,
          some (_create_image_content demoDefs (fun s => [s]) ("f").toList
            ("p").toList []), none, none, none⟩] ++
        textBlocks demoDefs (fun s => [s]) "p" ("b").toList ++
        [⟨String.mk (c4idsDemo 0), none, none, none,
          some ⟨pyStrip ("h").toList, none⟩, none⟩] ++
        textBlocks demoDefs (fun s => [s]) "p" ("c").toList ∧
    preprocess_and_replace_figures c4figPDemo c4htmlPDemo c4imgPDemo
        demoDefs (fun s => [s]) c4idsDemo ("f").toList
        (c4figraw c4figPDemo c4imgPDemo ("a").toList ("c").toList [] []
          ("q").toList) 0 [] =
      (("a").toList ++ phToken (c4idsDemo 0) ++ ("c").toList,
       [(phToken (c4idsDemo 0),
         ⟨String.mk (c4idsDemo 0), none, none,
          some ⟨[_create_image_content demoDefs (fun s => [s]) ("f").toList
            ("q").toList []], none⟩, none, none⟩)],
       0 + 1) := by
  have h := c4_figure_placeholder_roundtrip c4figPDemo c4htmlPDemo
    c4imgPDemo demoDefs (fun s => [s]) c4idsDemo ("f").toList "p"
    ("a").toList ("b").toList ("c").toList ("p").toList ("h").toList 0
    ("a").toList ("c").toList [] [] ("q").toList 0
    (by
      intro n c hc
      have hcx := List.eq_of_mem_replicate hc
      subst hcx
      exact ⟨by decide, by decide⟩)
    (by decide) (by decide) (by decide) (by decide) (by decide) (by decide)
    (by decide) (by decide) (by decide) (by decide) (by decide) (by decide)
    (by decide) (by decide) (by decide) (by decide) (by decide)
  exact ⟨by decide, h.2.1, h.2.2.2⟩

end Lumi
